import Mathlib

/-!
# Verification of the Kochi Metro route optimizer (`src/dijkstra.py`)

Shallow embedding of the network model (`KochiMetroNetwork`) and the
multi-criteria route optimizer (`MetroRouteOptimizer`) from `dijkstra.py`.

Modelling conventions:
* Python `float` values are embedded as exact rationals (`ℚ`); the float
  sentinel `float('inf')` is embedded as `none : Option ℚ` (a finite value
  `q` is `some q`).  All comparisons the algorithm performs between the
  values arising at run time are decided identically by the exact rationals
  and by IEEE doubles (the magnitudes involved are far apart), and `none`
  is never strictly less than anything, exactly like `inf` (and like `nan`,
  which can only arise in the dead branch where a settled station would
  carry an infinite total).
* A Python `dict` whose key set is fixed (the `distances`/`costs`/`times`/
  `stops`/`previous` tables, whose keys are exactly the station set for the
  whole run) is embedded as a total function; reads the source performs are
  always at keys of the table when the network satisfies the NetworkModel
  invariant (every edge endpoint is a registered station), which is a
  hypothesis of every theorem that needs it.
* The `defaultdict(list)` adjacency map is embedded as an association list
  in insertion order, and its `__getitem__` (which inserts an empty list at
  a missing key — an observable mutation) is embedded explicitly (`ddGet`).
* `heapq` is embedded as a list kept sorted by the lexicographic order on
  `(score, station)` pairs, which Python's tuple comparison induces;
  `heappop` is then exactly "take the head", and the sequence of popped
  minima agrees with the binary heap's.
* The two `while` loops are embedded with an explicit fuel parameter,
  `none` meaning the loop did not finish within the given fuel; the main
  loop is run with a fuel that is proved sufficient.
-/

/-- One entry of an adjacency list: the dict
`{'destination': …, 'travel_time': …, 'distance': …, 'cost': …}`
appended by `KochiMetroNetwork.add_connection`. -/
structure Connection where
  destination : String
  travel_time : ℚ
  distance : ℚ
  cost : ℚ
deriving DecidableEq, Repr

/-- The `defaultdict(list)` adjacency map `KochiMetroNetwork.graph`,
as an association list in insertion order. -/
abbrev Graph := List (String × List Connection)

/-- Reading `graph[k]` without the defaultdict insertion side effect:
the value stored at `k`, or `[]` when `k` is absent.  This is the
"defaultdict view" of the map. -/
def ddView (g : Graph) (k : String) : List Connection :=
  match g.find? (fun p => p.1 = k) with
  | some p => p.2
  | none => []

/-- `graph[k]` as the source executes it: a `defaultdict(list)` lookup
returns the stored list, and *inserts* `k ↦ []` when `k` is absent.
Returns the list together with the (possibly grown) map. -/
def ddGet (g : Graph) (k : String) : List Connection × Graph :=
  match g.find? (fun p => p.1 = k) with
  | some p => (p.2, g)
  | none => ([], g ++ [(k, [])])

/-- `graph[k].append c`: append to the list stored at `k`, creating the
entry (as the defaultdict would) when `k` is absent. -/
def graphAppend : Graph → String → Connection → Graph
  | [], k, c => [(k, [c])]
  | (k', l) :: rest, k, c =>
      if k' = k then (k', l ++ [c]) :: rest else (k', l) :: graphAppend rest k c

/-- The state of a `KochiMetroNetwork` object: the adjacency map, the
station set (a Python `set`, kept here as its list of elements in
insertion order), and `station_info` (station ↦ (line, zone)). -/
structure Network where
  graph : Graph
  stations : List String
  station_info : List (String × String × String)
deriving DecidableEq, Repr

/-- `KochiMetroNetwork.add_connection`: appends the directed edge
`station1 → station2` to `graph[station1]`.  (Note: the source touches
only `self.graph`; it does not modify `self.stations`.) -/
def add_connection (net : Network) (station1 station2 : String)
    (travel_time distance cost : ℚ) : Network :=
  let c : Connection := ⟨station2, travel_time, distance, cost⟩
  { net with graph := graphAppend net.graph station1 c }

/-- `KochiMetroNetwork._get_zone`. -/
def get_zone (station : String) : String :=
  if station ∈ ["Aluva", "Pulinchodu", "Companypady"] then "Zone 3"
  else if station ∈ ["Thripunithura", "Petta", "Thaikoodam"] then "Zone 3"
  else if station ∈ ["M.G Road", "Maharajas", "Ernakulam South", "Lissie"] then "Zone 1"
  else "Zone 2"

/-- `dict.get` on a literal table keyed by station pairs. -/
def pairGet (table : List ((String × String) × ℚ)) (k : String × String) : Option ℚ :=
  (table.find? (fun p => p.1 = k)).map (fun p => p.2)

/-- The `special_segments` table of `_calculate_travel_time`. -/
def special_segments : List ((String × String) × ℚ) :=
  [(("Aluva", "Pulinchodu"), 3),
   (("Edapally", "Changampuzha Park"), 2),
   (("M.G Road", "Maharajas"), 3/2),
   (("Vyttila", "Thaikoodam"), 7/2)]

/-- `KochiMetroNetwork._calculate_travel_time` (base time 2.5 minutes,
with the named overrides looked up in both orientations). -/
def calculate_travel_time (station1 station2 : String) : ℚ :=
  match pairGet special_segments (station1, station2) with
  | some t => t
  | none =>
    match pairGet special_segments (station2, station1) with
    | some t => t
    | none => 5/2

/-- The `special_distances` table of `_calculate_distance`. -/
def special_distances : List ((String × String) × ℚ) :=
  [(("Aluva", "Pulinchodu"), 9/5),
   (("Vyttila", "Thaikoodam"), 21/10),
   (("M.G Road", "Maharajas"), 4/5)]

/-- `KochiMetroNetwork._calculate_distance` (base distance 1.2 km). -/
def calculate_distance (station1 station2 : String) : ℚ :=
  match pairGet special_distances (station1, station2) with
  | some d => d
  | none =>
    match pairGet special_distances (station2, station1) with
    | some d => d
    | none => 6/5

/-- `KochiMetroNetwork._calculate_cost`: ₹5 per hop. -/
def calculate_cost (_station1 _station2 : String) : ℚ := 5

/-- The `line1_stations` literal of `_build_network`. -/
def line1_stations : List String :=
  ["Aluva", "Pulinchodu", "Companypady", "Ambattukavu", "Muttom",
   "Kalamassery", "Cusat", "Pathadipalam", "Edapally", "Changampuzha Park",
   "Palarivattom", "J.L.N Stadium", "Kaloor", "Lissie", "M.G Road",
   "Maharajas", "Ernakulam South", "Kadavanthra", "Elamkulam",
   "Vyttila", "Thaikoodam", "Petta", "Thripunithura"]

/-- Python `set.add` on the insertion-ordered element list. -/
def setAdd (l : List String) (s : String) : List String :=
  if s ∈ l then l else l ++ [s]

/-- One iteration of the second loop of `_build_network`: add the two
directed edges between consecutive stations `p.1` and `p.2`. -/
def addSegment (net : Network) (p : String × String) : Network :=
  let travel_time := calculate_travel_time p.1 p.2
  let distance := calculate_distance p.1 p.2
  let cost := calculate_cost p.1 p.2
  add_connection (add_connection net p.1 p.2 travel_time distance cost)
    p.2 p.1 travel_time distance cost

/-- The network built by the `KochiMetroNetwork` constructor
(`__init__` followed by `_build_network`). -/
def kochiMetroNetwork : Network :=
  let stations := line1_stations.foldl setAdd []
  let info := line1_stations.foldl
    (fun m s => m ++ [(s, ("Blue Line", get_zone s))]) []
  (line1_stations.zip line1_stations.tail).foldl addSegment
    { graph := [], stations := stations, station_info := info }

/-- One value of the mapping returned by `find_optimal_routes`. -/
structure RouteResult where
  path : List String
  total_cost : ℚ
  total_time : ℚ
  total_stops : ℤ
  composite_score : ℚ
deriving DecidableEq, Repr

/-- Float addition `x + c` where `x` may be the `inf` sentinel. -/
def fadd : Option ℚ → ℚ → Option ℚ
  | none, _ => none
  | some q, c => some (q + c)

/-- The composite score
`cost_weight * (new_cost/100) + time_weight * (new_time/60) + stops_weight * (new_stops/25)`
of `dijkstra_multi_criteria`, on possibly-infinite accumulated totals.
(When any total is infinite the float result is `inf` — or `nan` for a
zero weight — neither of which is ever strictly below a recorded score,
exactly like `none` here; see `flt`.) -/
def fcomposite (w1 w2 w3 : ℚ) : Option ℚ → Option ℚ → Option ℚ → Option ℚ
  | some c, some t, some s => some (w1 * (c / 100) + w2 * (t / 60) + w3 * (s / 25))
  | _, _, _ => none

/-- Float strict comparison `x < y` with the `inf` sentinel:
`inf` (and `nan`) is never strictly less than anything, and every finite
value is strictly less than `inf`. -/
def flt : Option ℚ → Option ℚ → Bool
  | none, _ => false
  | some _, none => true
  | some a, some b => a < b

/-- Lexicographic comparison of frontier entries `(score, station)`,
exactly Python's tuple comparison on `(float, str)`. -/
def entryLE (e1 e2 : Option ℚ × String) : Bool :=
  flt e1.1 e2.1 || (e1.1 == e2.1 && e1.2 ≤ e2.2)

/-- `heapq.heappush`: the frontier is kept as a list sorted by `entryLE`,
so that the head is always the minimum `heappop` would return. -/
def pqPush : List (Option ℚ × String) → (Option ℚ × String) → List (Option ℚ × String)
  | [], e => [e]
  | x :: xs, e => if entryLE e x then e :: x :: xs else x :: pqPush xs e

/-- The working state of `dijkstra_multi_criteria`: the five tables, the
frontier, the settled set (newest first), and the network's adjacency map
(threaded because the `defaultdict` lookups may grow it). -/
structure DState where
  distances : String → Option ℚ
  costs : String → Option ℚ
  times : String → Option ℚ
  stops : String → Option ℚ
  previous : String → Option String
  pq : List (Option ℚ × String)
  visited : List String
  graph : Graph

instance : Inhabited DState :=
  ⟨⟨fun _ => none, fun _ => none, fun _ => none, fun _ => none,
    fun _ => none, [], [], []⟩⟩

/-- Pointwise update of one of the tables. -/
def tset {α : Type} (f : String → α) (k : String) (v : α) : String → α :=
  fun s => if s = k then v else f s

/-- The body of the `for connection in self.network.graph[current_station]`
loop: relax one outgoing edge of `current`. -/
def relaxEdge (w1 w2 w3 : ℚ) (current : String) (st : DState)
    (connection : Connection) : DState :=
  let neighbor := connection.destination
  if neighbor ∈ st.visited then st
  else
    let new_cost := fadd (st.costs current) connection.cost
    let new_time := fadd (st.times current) connection.travel_time
    let new_stops := fadd (st.stops current) 1
    let composite_distance := fcomposite w1 w2 w3 new_cost new_time new_stops
    if flt composite_distance (st.distances neighbor) then
      { st with
        distances := tset st.distances neighbor composite_distance
        costs := tset st.costs neighbor new_cost
        times := tset st.times neighbor new_time
        stops := tset st.stops neighbor new_stops
        previous := tset st.previous neighbor (some current)
        pq := pqPush st.pq (composite_distance, neighbor) }
    else st

/-- One iteration of the `while pq` loop, after the pop: skip an already
settled station, otherwise settle it and relax its outgoing edges. -/
def dijkstraBody (w1 w2 w3 : ℚ) (st : DState) (current : String)
    (rest : List (Option ℚ × String)) : DState :=
  if current ∈ st.visited then { st with pq := rest }
  else
    let p := ddGet st.graph current
    p.1.foldl (relaxEdge w1 w2 w3 current)
      { st with pq := rest, visited := current :: st.visited, graph := p.2 }

/-- The `while pq` loop, with explicit fuel (`none` = the loop did not
finish within the fuel; `dijkstraFuel` is proved sufficient below). -/
def dijkstraLoop (w1 w2 w3 : ℚ) : ℕ → DState → Option DState
  | 0, _ => none
  | fuel + 1, st =>
    match st.pq with
    | [] => some st
    | (_, current) :: rest => dijkstraLoop w1 w2 w3 fuel (dijkstraBody w1 w2 w3 st current rest)

/-- Total number of edges stored in the adjacency map. -/
def graphSize (g : Graph) : ℕ := (g.map (fun p => p.2.length)).sum

/-- Fuel for the main loop: strictly more than the largest possible
number of iterations (one initial entry plus at most one push per edge). -/
def dijkstraFuel (net : Network) : ℕ := 2 + graphSize net.graph

/-- The initial working state of `dijkstra_multi_criteria`. -/
def initState (net : Network) (start_station : String) : DState :=
  { distances := tset (fun _ => none) start_station (some 0)
    costs := tset (fun _ => none) start_station (some 0)
    times := tset (fun _ => none) start_station (some 0)
    stops := tset (fun _ => none) start_station (some 0)
    previous := fun _ => none
    pq := [(some 0, start_station)]
    visited := []
    graph := net.graph }

/-- The error message of the `ValueError` raised for an unknown origin. -/
def unknownStationMsg (s : String) : String :=
  "Station '" ++ s ++ "' not found in the network"

/-- `MetroRouteOptimizer.dijkstra_multi_criteria`: validate the origin,
then run the relaxation loop.  `Except.error` is the raised `ValueError`;
`Except.ok none` would mean the loop did not finish (never happens). -/
def dijkstra_multi_criteria (net : Network) (start_station : String)
    (cost_weight time_weight stops_weight : ℚ) : Except String (Option DState) :=
  if start_station ∈ net.stations then
    .ok (dijkstraLoop cost_weight time_weight stops_weight (dijkstraFuel net)
      (initState net start_station))
  else
    .error (unknownStationMsg start_station)

/-- The `while current is not None` loop of `get_path`, with fuel.
Each step prepends `current` (the source appends then reverses — same
list) and follows the predecessor link. -/
def getPathLoop (previous : String → Option String) :
    ℕ → Option String → List String → Option (List String)
  | 0, _, _ => none
  | _ + 1, none, path => some path
  | fuel + 1, some current, path =>
      getPathLoop previous fuel (previous current) (current :: path)

/-- `MetroRouteOptimizer.get_path`: walk the predecessor links from
`end_station`, and return `[]` when the walk does not start at
`start_station`. -/
def get_path (previous : String → Option String) (fuel : ℕ)
    (start_station end_station : String) : Option (List String) :=
  match getPathLoop previous fuel (some end_station) [] with
  | none => none
  | some path =>
    match path with
    | [] => some []
    | p0 :: _ => if p0 = start_station then some path else some []

/-- Truncation of a float to `int`, i.e. Python `int(x)` (toward zero). -/
def pyInt (q : ℚ) : ℤ := q.num / (q.den : ℤ)

/-- Python `round(x, n)`: round to `n` decimal places, ties to even.
(The floor is computed as `Int.fdiv` of the numerator by the positive
denominator so that the definition evaluates inside the kernel.) -/
def pyRound (q : ℚ) (n : ℕ) : ℚ :=
  let p : ℚ := ((10 ^ n : ℕ) : ℚ)
  let m : ℚ := q * p
  let f : ℤ := m.num.fdiv (m.den : ℤ)
  let r : ℚ := m - (f : ℚ)
  let i : ℤ :=
    if r < 1/2 then f
    else if 1/2 < r then f + 1
    else if f % 2 = 0 then f else f + 1
  (i : ℚ) / p

/-- The finite value of a recorded total (all totals read by
`find_optimal_routes` are finite, being guarded by the
`distances[station] != float('inf')` test and the invariant that the four
tables become finite together). -/
def fin0 : Option ℚ → ℚ
  | none => 0
  | some q => q

/-- One iteration of the `for station in self.network.stations` loop of
`find_optimal_routes` (in the `Option` monad because a non-terminating
`get_path` walk would make the whole call diverge). -/
def routeStep (st : DState) (start_station : String) (fuel : ℕ)
    (acc : Option (List (String × RouteResult))) (station : String) :
    Option (List (String × RouteResult)) :=
  match acc with
  | none => none
  | some routes =>
    if station ≠ start_station ∧ st.distances station ≠ none then
      match get_path st.previous fuel start_station station with
      | none => none
      | some path =>
        some (routes ++ [(station,
          { path := path
            total_cost := pyRound (fin0 (st.costs station)) 2
            total_time := pyRound (fin0 (st.times station)) 2
            total_stops := pyInt (fin0 (st.stops station))
            composite_score := pyRound (fin0 (st.distances station)) 4 })])
    else some routes

/-- `MetroRouteOptimizer.find_optimal_routes`: run the relaxation, then
assemble the mapping destination ↦ `RouteResult` (an association list in
the iteration order of the station set).  The returned `Network` is the
state of the bound network object after the call (its adjacency map may
have been grown by the `defaultdict` lookups). -/
def find_optimal_routes (net : Network) (start_station : String)
    (cost_weight time_weight stops_weight : ℚ) :
    Except String (Option (List (String × RouteResult) × Network)) :=
  match dijkstra_multi_criteria net start_station cost_weight time_weight stops_weight with
  | .error e => .error e
  | .ok none => .ok none
  | .ok (some st) =>
    match net.stations.foldl (routeStep st start_station (net.stations.length + 1))
        (some []) with
    | none => .ok none
    | some routes => .ok (some (routes, { net with graph := st.graph }))

/-- Lookup in the returned mapping. -/
def lookupRoute (routes : List (String × RouteResult)) (s : String) :
    Option RouteResult :=
  (routes.find? (fun p => p.1 = s)).map (fun p => p.2)

/-- The mapping returned by a successful `find_optimal_routes` call
(`[]` when the call errors or diverges). -/
def routesOf (net : Network) (start_station : String)
    (cost_weight time_weight stops_weight : ℚ) : List (String × RouteResult) :=
  match find_optimal_routes net start_station cost_weight time_weight stops_weight with
  | .ok (some p) => p.1
  | _ => []

/-- The state of the bound network object after a `find_optimal_routes`
call (unchanged when the call errors or diverges). -/
def networkAfter (net : Network) (start_station : String)
    (cost_weight time_weight stops_weight : ℚ) : Network :=
  match find_optimal_routes net start_station cost_weight time_weight stops_weight with
  | .ok (some p) => p.2
  | _ => net

/-- The final working state of the relaxation (for stating invariants of
the run that `find_optimal_routes` performed). -/
def dijkstraState (net : Network) (start_station : String)
    (cost_weight time_weight stops_weight : ℚ) : DState :=
  match dijkstra_multi_criteria net start_station cost_weight time_weight stops_weight with
  | .ok (some st) => st
  | _ => default

/-- The edge relation of a network's adjacency structure, read through
the defaultdict view: there is an edge from `a` to `b`. -/
def hasEdge (net : Network) (a b : String) : Prop :=
  ∃ c ∈ ddView net.graph a, c.destination = b

/-- The NetworkModel invariant: every edge endpoint is a registered
station (the spec's "every edge's endpoints are members of the station
set"; sources of edges are graph keys, destinations are checked here,
and graph keys are also required to be stations). -/
abbrev WFNet (net : Network) : Prop :=
  ∀ p ∈ net.graph, p.1 ∈ net.stations ∧ ∀ c ∈ p.2, c.destination ∈ net.stations

/-- All edge attributes used by the optimization are non-negative. -/
abbrev NonnegNet (net : Network) : Prop :=
  ∀ p ∈ net.graph, ∀ c ∈ p.2, 0 ≤ c.cost ∧ 0 ≤ c.travel_time

/-- Order on recorded scores, `none` being the `inf` sentinel. -/
def scoreLE : Option ℚ → Option ℚ → Prop
  | _, none => True
  | none, some _ => False
  | some a, some b => a ≤ b

/-- Decidable equality of call results (used only to evaluate the model
at concrete inputs). -/
instance {α β : Type} [DecidableEq α] [DecidableEq β] : DecidableEq (Except α β) :=
  fun a b =>
    match a, b with
    | .ok x, .ok y => decidable_of_iff (x = y) (by simp)
    | .error x, .error y => decidable_of_iff (x = y) (by simp)
    | .ok _, .error _ => isFalse (by simp)
    | .error _, .ok _ => isFalse (by simp)

/-- A two-station NetworkModel in which station "B" is registered and
reachable but has no outgoing-edge entry in the adjacency map (the spec
explicitly allows stations with no outgoing edges). -/
def netB : Network :=
  { graph := [("A", [⟨"B", 1, 1, 1⟩])], stations := ["A", "B"], station_info := [] }

/-- A three-station NetworkModel with a bidirectional edge A–B and an
isolated station "C" (a disconnected component). -/
def netC : Network :=
  { graph := [("A", [⟨"B", 1, 1, 1⟩]), ("B", [⟨"A", 1, 1, 1⟩])],
    stations := ["A", "B", "C"], station_info := [] }

/-- The predecessor links of the settled stations (`visited`, newest
first) form a forest whose chains run toward older settled stations and
bottom out at the origin. -/
def PrevLinks (previous : String → Option String) (origin : String) : List String → Prop
  | [] => True
  | v :: rest => (v = origin ∨ ∃ u, previous v = some u ∧ u ∈ rest) ∧
      PrevLinks previous origin rest

/-- `PrevPath previous origin v p`: `p` is the full predecessor walk from
the origin to `v` (origin first). -/
inductive PrevPath (previous : String → Option String) (origin : String) :
    String → List String → Prop
  | base : previous origin = none → PrevPath previous origin origin [origin]
  | step {v u : String} {p : List String} : previous v = some u →
      PrevPath previous origin u p → PrevPath previous origin v (p ++ [v])

/-! ## Basic lemmas about the container embeddings -/

theorem tset_eq {α : Type} (f : String → α) (k : String) (v : α) : tset f k v k = v := by
  simp [tset]

theorem tset_ne {α : Type} (f : String → α) {k s : String} (v : α) (h : s ≠ k) :
    tset f k v s = f s := by
  simp [tset, h]

theorem mem_pqPush {pq : List (Option ℚ × String)} {e a : Option ℚ × String} :
    a ∈ pqPush pq e ↔ a ∈ pq ∨ a = e := by
  induction pq with
  | nil => simp [pqPush]
  | cons x xs ih =>
    simp only [pqPush]
    split
    · simp [or_comm, or_assoc, List.mem_cons]
    · simp [ih, List.mem_cons, or_assoc]

theorem length_pqPush (pq : List (Option ℚ × String)) (e : Option ℚ × String) :
    (pqPush pq e).length = pq.length + 1 := by
  induction pq with
  | nil => simp [pqPush]
  | cons x xs ih =>
    simp only [pqPush]
    split
    · simp
    · simp [ih]

theorem ddGet_fst (g : Graph) (k : String) : (ddGet g k).1 = ddView g k := by
  unfold ddGet ddView
  cases g.find? (fun p => p.1 = k) <;> simp


theorem ddView_nil (k : String) : ddView [] k = [] := rfl

theorem ddView_cons (a : String × List Connection) (g : Graph) (k : String) :
    ddView (a :: g) k = if a.1 = k then a.2 else ddView g k := by
  by_cases h : a.1 = k <;> simp [ddView, List.find?_cons, h]

theorem ddView_append_nil (g : Graph) (k k' : String) :
    ddView (g ++ [(k, [])]) k' = ddView g k' := by
  induction g with
  | nil => by_cases h : k = k' <;> simp [ddView_cons, ddView_nil, h]
  | cons a g ih =>
    rw [List.cons_append, ddView_cons, ddView_cons, ih]

theorem ddGet_snd_view (g : Graph) (k k' : String) :
    ddView (ddGet g k).2 k' = ddView g k' := by
  unfold ddGet
  cases g.find? (fun p => p.1 = k)
  · simp [ddView_append_nil]
  · simp

theorem ddView_graphAppend_self (g : Graph) (k : String) (c : Connection) :
    ddView (graphAppend g k c) k = ddView g k ++ [c] := by
  induction g with
  | nil => simp [graphAppend, ddView_cons, ddView_nil]
  | cons a g ih =>
    obtain ⟨k', l⟩ := a
    by_cases h : k' = k
    · subst h
      simp [graphAppend, ddView_cons]
    · rw [graphAppend, if_neg h, ddView_cons, ddView_cons]
      simp only [if_neg h, ih]

theorem ddView_graphAppend_other (g : Graph) (k : String) (c : Connection)
    {k' : String} (h : k' ≠ k) :
    ddView (graphAppend g k c) k' = ddView g k' := by
  induction g with
  | nil =>
    simp only [graphAppend, ddView_cons, ddView_nil]
    rw [if_neg (fun hh : k = k' => h hh.symm)]
  | cons a g ih =>
    obtain ⟨k'', l⟩ := a
    by_cases hk : k'' = k
    · subst hk
      rw [graphAppend, if_pos rfl, ddView_cons, ddView_cons]
      rw [if_neg (fun hh : k'' = k' => h (hh ▸ rfl)), if_neg (fun hh : k'' = k' => h (hh ▸ rfl))]
    · rw [graphAppend, if_neg hk, ddView_cons, ddView_cons, ih]

theorem mem_ddView (net : Network) {k : String} {c : Connection}
    (hwf : WFNet net) (hc : c ∈ ddView net.graph k) : c.destination ∈ net.stations := by
  unfold ddView at hc
  cases h : net.graph.find? (fun p => p.1 = k) with
  | none => simp [h] at hc
  | some p =>
    rw [h] at hc
    exact (hwf p (List.mem_of_find?_eq_some h)).2 c hc

/-! ## Predecessor walks -/

theorem prevPath_head {previous : String → Option String} {origin : String} :
    ∀ {v : String} {p : List String}, PrevPath previous origin v p → p.head? = some origin := by
  intro v p h
  induction h with
  | base _ => rfl
  | step hprev hp ih =>
    rename_i v' u' p'
    cases p' with
    | nil => simp at ih
    | cons a l => simpa using ih

theorem prevPath_ne_nil {previous : String → Option String} {origin v : String}
    {p : List String} (h : PrevPath previous origin v p) : p ≠ [] := by
  intro hnil
  have := prevPath_head h
  rw [hnil] at this
  simp at this

theorem prevPath_last {previous : String → Option String} {origin v : String}
    {p : List String} (h : PrevPath previous origin v p) : p.getLast? = some v := by
  cases h with
  | base _ => rfl
  | step _ hprev => simp

theorem prevPath_loop {previous : String → Option String} {origin v : String}
    {p : List String} (h : PrevPath previous origin v p) :
    ∀ fuel acc, p.length < fuel →
      getPathLoop previous fuel (some v) acc = some (p ++ acc) := by
  induction h with
  | base h0 =>
    intro fuel acc hf
    obtain ⟨f, rfl⟩ : ∃ f, fuel = f + 2 := ⟨fuel - 2, by simp at hf; omega⟩
    simp [getPathLoop, h0]
  | step hprev hp ih =>
    intro fuel acc hf
    obtain ⟨f, rfl⟩ : ∃ f, fuel = f + 1 := ⟨fuel - 1, by simp at hf; omega⟩
    rw [getPathLoop, hprev, ih f (_ :: acc) (by simp at hf; omega)]
    simp

theorem getPathLoop_eq_prevPath {previous : String → Option String} {origin v : String}
    {p : List String} (h : PrevPath previous origin v p) :
    ∀ fuel acc r, getPathLoop previous fuel (some v) acc = some r → r = p ++ acc := by
  induction h with
  | base h0 =>
    intro fuel acc r hr
    match fuel with
    | 0 => exact absurd hr (by simp [getPathLoop])
    | fuel + 1 =>
      rw [getPathLoop, h0] at hr
      match fuel with
      | 0 => exact absurd hr (by simp [getPathLoop])
      | fuel + 1 =>
        simp only [getPathLoop, Option.some.injEq] at hr
        simp [← hr]
  | step hprev hp ih =>
    intro fuel acc r hr
    match fuel with
    | 0 => exact absurd hr (by simp [getPathLoop])
    | fuel + 1 =>
      rw [getPathLoop, hprev] at hr
      rw [ih fuel _ r hr]
      simp

theorem prevPath_chain {previous : String → Option String} {origin v : String}
    {p : List String} {R : String → String → Prop}
    (hR : ∀ x y, previous x = some y → R y x)
    (h : PrevPath previous origin v p) : List.Chain' R p := by
  induction h with
  | base _ => simp
  | step hprev hp ih =>
    rename_i v' u' p'
    rw [List.chain'_append]
    refine ⟨ih, by simp, ?_⟩
    intro x hx y hy
    rw [prevPath_last hp] at hx
    have hx' : x = u' := by simpa [eq_comm] using hx
    have hy' : y = v' := by simpa [eq_comm] using hy
    rw [hx', hy']
    exact hR _ _ hprev

theorem prevPath_stops {previous : String → Option String} {origin v : String}
    {p : List String} {stopsT : String → Option ℚ}
    (h0 : stopsT origin = some 0)
    (hstep : ∀ x y, previous x = some y → stopsT x = fadd (stopsT y) 1)
    (h : PrevPath previous origin v p) : stopsT v = some ((p.length : ℚ) - 1) := by
  induction h with
  | base _ => simpa using h0
  | step hprev hp ih =>
    rw [hstep _ _ hprev, ih]
    simp only [fadd, Option.some.injEq, List.length_append, List.length_cons,
      List.length_nil, Nat.cast_add, Nat.cast_one]
    ring

theorem prevLinks_congr {previous previous' : String → Option String} {origin : String} :
    ∀ {l : List String}, (∀ v ∈ l, previous' v = previous v) →
      PrevLinks previous origin l → PrevLinks previous' origin l := by
  intro l
  induction l with
  | nil => intro _ _; trivial
  | cons v rest ih =>
    intro hagree h
    refine ⟨?_, ih (fun x hx => hagree x (List.mem_cons_of_mem _ hx)) h.2⟩
    rcases h.1 with h1 | ⟨u, hu, hmem⟩
    · exact Or.inl h1
    · exact Or.inr ⟨u, by rw [hagree v (List.mem_cons_self _ _)]; exact hu, hmem⟩

theorem prevLinks_path {previous : String → Option String} {origin : String}
    (h0 : previous origin = none) :
    ∀ {l : List String}, PrevLinks previous origin l →
      ∀ v ∈ l, ∃ p, PrevPath previous origin v p ∧ (∀ x ∈ p, x ∈ l) ∧ p.length ≤ l.length := by
  intro l
  induction l with
  | nil => intro _ v hv; simp at hv
  | cons w rest ih =>
    intro h v hv
    rcases List.mem_cons.mp hv with rfl | hvr
    · rcases h.1 with rfl | ⟨u, hu, hmem⟩
      · exact ⟨[v], .base h0, by simp, by simp⟩
      · obtain ⟨p, hp, hsub, hlen⟩ := ih h.2 u hmem
        refine ⟨p ++ [v], .step hu hp, ?_, by simpa using Nat.succ_le_succ hlen⟩
        intro x hx
        rcases List.mem_append.mp hx with hx | hx
        · exact List.mem_cons_of_mem _ (hsub x hx)
        · rw [List.mem_singleton.mp hx]
          exact List.mem_cons_self _ _
    · obtain ⟨p, hp, hsub, hlen⟩ := ih h.2 v hvr
      exact ⟨p, hp, fun x hx => List.mem_cons_of_mem _ (hsub x hx),
        Nat.le_succ_of_le hlen⟩

/-! ## The loop invariant of `dijkstra_multi_criteria` -/

/-- The candidate accumulated cost for relaxing edge `c` out of `cur`. -/
def newCost (st : DState) (cur : String) (c : Connection) : Option ℚ :=
  fadd (st.costs cur) c.cost

/-- The candidate accumulated time. -/
def newTime (st : DState) (cur : String) (c : Connection) : Option ℚ :=
  fadd (st.times cur) c.travel_time

/-- The candidate accumulated stop count. -/
def newStops (st : DState) (cur : String) (c : Connection) : Option ℚ :=
  fadd (st.stops cur) 1

/-- The candidate composite score. -/
def newScore (w1 w2 w3 : ℚ) (st : DState) (cur : String) (c : Connection) : Option ℚ :=
  fcomposite w1 w2 w3 (newCost st cur c) (newTime st cur c) (newStops st cur c)

/-- The state after an improving relaxation of edge `c` out of `cur`. -/
def relaxed (w1 w2 w3 : ℚ) (cur : String) (st : DState) (c : Connection) : DState :=
  { st with
    distances := tset st.distances c.destination (newScore w1 w2 w3 st cur c)
    costs := tset st.costs c.destination (newCost st cur c)
    times := tset st.times c.destination (newTime st cur c)
    stops := tset st.stops c.destination (newStops st cur c)
    previous := tset st.previous c.destination (some cur)
    pq := pqPush st.pq (newScore w1 w2 w3 st cur c, c.destination) }

theorem relaxEdge_cases (w1 w2 w3 : ℚ) (cur : String) (st : DState) (c : Connection) :
    relaxEdge w1 w2 w3 cur st c = st ∨
    (c.destination ∉ st.visited ∧
     flt (newScore w1 w2 w3 st cur c) (st.distances c.destination) = true ∧
     relaxEdge w1 w2 w3 cur st c = relaxed w1 w2 w3 cur st c) := by
  unfold relaxEdge
  by_cases h1 : c.destination ∈ st.visited
  · simp only [if_pos h1]
    exact Or.inl trivial
  · simp only [if_neg h1]
    by_cases h2 : flt (newScore w1 w2 w3 st cur c) (st.distances c.destination) = true
    · simp only [newScore, newCost, newTime, newStops] at h2
      simp only [if_pos h2]
      exact Or.inr ⟨h1, by simpa [newScore, newCost, newTime, newStops] using h2, rfl⟩
    · simp only [newScore, newCost, newTime, newStops] at h2
      simp only [if_neg h2]
      exact Or.inl trivial

theorem relaxEdge_visited (w1 w2 w3 : ℚ) (cur : String) (st : DState) (c : Connection) :
    (relaxEdge w1 w2 w3 cur st c).visited = st.visited := by
  rcases relaxEdge_cases w1 w2 w3 cur st c with h | ⟨_, _, h⟩ <;> rw [h] <;> rfl

theorem relaxEdge_graph (w1 w2 w3 : ℚ) (cur : String) (st : DState) (c : Connection) :
    (relaxEdge w1 w2 w3 cur st c).graph = st.graph := by
  rcases relaxEdge_cases w1 w2 w3 cur st c with h | ⟨_, _, h⟩ <;> rw [h] <;> rfl

theorem relaxEdge_distances_visited (w1 w2 w3 : ℚ) (cur : String) (st : DState)
    (c : Connection) {v : String} (hv : v ∈ st.visited) :
    (relaxEdge w1 w2 w3 cur st c).distances v = st.distances v := by
  rcases relaxEdge_cases w1 w2 w3 cur st c with h | ⟨hnv, _, h⟩
  · rw [h]
  · rw [h]
    exact tset_ne _ _ (fun hh => hnv (hh ▸ hv))

/-- The invariant maintained by every iteration of the relaxation loop. -/
structure DInv (net : Network) (origin : String) (w1 w2 w3 : ℚ) (st : DState) : Prop where
  prev_origin : st.previous origin = none
  prev_visited : ∀ v u, st.previous v = some u → u ∈ st.visited
  prev_edge : ∀ v u, st.previous v = some u → hasEdge net u v
  pq_entry : ∀ e ∈ st.pq, e.2 = origin ∨ st.previous e.2 ≠ none
  reached_settled : ∀ v, st.distances v ≠ none → v ∈ st.visited ∨ ∃ e ∈ st.pq, e.2 = v
  visited_nodup : st.visited.Nodup
  links : PrevLinks st.previous origin st.visited
  origin_zero : st.distances origin = some 0 ∧ st.costs origin = some 0 ∧
    st.times origin = some 0 ∧ st.stops origin = some 0
  origin_first : origin ∈ st.visited ∨ (st.visited = [] ∧ st.pq = [(some 0, origin)])
  stops_step : ∀ v u, st.previous v = some u → st.stops v = fadd (st.stops u) 1
  dist_composite : ∀ v, st.distances v =
    fcomposite w1 w2 w3 (st.costs v) (st.times v) (st.stops v)
  graph_view : ∀ k, ddView st.graph k = ddView net.graph k


theorem dinv_relax {net : Network} {origin : String} {w1 w2 w3 : ℚ} {cur : String}
    {st : DState} {c : Connection}
    (hc : c ∈ ddView net.graph cur) (hcur : cur ∈ st.visited) (horig : origin ∈ st.visited)
    (h : DInv net origin w1 w2 w3 st) :
    DInv net origin w1 w2 w3 (relaxEdge w1 w2 w3 cur st c) := by
  rcases relaxEdge_cases w1 w2 w3 cur st c with heq | ⟨hnv, _, heq⟩
  · rw [heq]; exact h
  · rw [heq]
    have hdo : c.destination ≠ origin := fun hh => hnv (hh ▸ horig)
    have hdc : c.destination ≠ cur := fun hh => hnv (hh ▸ hcur)
    refine ⟨?_, ?_, ?_, ?_, ?_, ?_, ?_, ?_, ?_, ?_, ?_, ?_⟩
    · show tset st.previous c.destination (some cur) origin = none
      rw [tset_ne _ _ (Ne.symm hdo)]
      exact h.prev_origin
    · intro v u hvu
      show u ∈ st.visited
      rw [show (relaxed w1 w2 w3 cur st c).previous = tset st.previous c.destination (some cur)
        from rfl] at hvu
      by_cases hv : v = c.destination
      · subst hv
        rw [tset_eq] at hvu
        injection hvu with hh
        rw [← hh]
        exact hcur
      · rw [tset_ne _ _ hv] at hvu
        exact h.prev_visited v u hvu
    · intro v u hvu
      by_cases hv : v = c.destination
      · subst hv
        rw [show (relaxed w1 w2 w3 cur st c).previous = tset st.previous c.destination (some cur)
          from rfl, tset_eq] at hvu
        injection hvu with hh
        rw [← hh]
        exact ⟨c, hc, rfl⟩
      · rw [show (relaxed w1 w2 w3 cur st c).previous = tset st.previous c.destination (some cur)
          from rfl, tset_ne _ _ hv] at hvu
        exact h.prev_edge v u hvu
    · intro e he
      show e.2 = origin ∨ tset st.previous c.destination (some cur) e.2 ≠ none
      rcases mem_pqPush.mp he with he' | rfl
      · rcases h.pq_entry e he' with h1 | h2
        · exact Or.inl h1
        · right
          by_cases hev : e.2 = c.destination
          · rw [hev, tset_eq]; simp
          · rw [tset_ne _ _ hev]; exact h2
      · right
        show tset st.previous c.destination (some cur) c.destination ≠ none
        rw [tset_eq]; simp
    · intro v hv
      show v ∈ st.visited ∨ ∃ e ∈ pqPush st.pq (newScore w1 w2 w3 st cur c, c.destination), e.2 = v
      by_cases hveq : v = c.destination
      · subst hveq
        exact Or.inr ⟨(newScore w1 w2 w3 st cur c, c.destination),
          mem_pqPush.mpr (Or.inr rfl), rfl⟩
      · have hv' : st.distances v ≠ none := by
          have : (relaxed w1 w2 w3 cur st c).distances v = st.distances v :=
            tset_ne _ _ hveq
          rwa [this] at hv
        rcases h.reached_settled v hv' with h1 | ⟨e, he, hev⟩
        · exact Or.inl h1
        · exact Or.inr ⟨e, mem_pqPush.mpr (Or.inl he), hev⟩
    · exact h.visited_nodup
    · show PrevLinks (tset st.previous c.destination (some cur)) origin st.visited
      refine prevLinks_congr ?_ h.links
      intro v hvl
      exact tset_ne _ _ (fun hh => hnv (hh ▸ hvl))
    · refine ⟨?_, ?_, ?_, ?_⟩
      · show tset st.distances c.destination (newScore w1 w2 w3 st cur c) origin = some 0
        rw [tset_ne _ _ (Ne.symm hdo)]; exact h.origin_zero.1
      · show tset st.costs c.destination (newCost st cur c) origin = some 0
        rw [tset_ne _ _ (Ne.symm hdo)]; exact h.origin_zero.2.1
      · show tset st.times c.destination (newTime st cur c) origin = some 0
        rw [tset_ne _ _ (Ne.symm hdo)]; exact h.origin_zero.2.2.1
      · show tset st.stops c.destination (newStops st cur c) origin = some 0
        rw [tset_ne _ _ (Ne.symm hdo)]; exact h.origin_zero.2.2.2
    · exact Or.inl horig
    · intro v u hvu
      show tset st.stops c.destination (newStops st cur c) v =
        fadd (tset st.stops c.destination (newStops st cur c) u) 1
      by_cases hv : v = c.destination
      · subst hv
        rw [show (relaxed w1 w2 w3 cur st c).previous = tset st.previous c.destination (some cur)
          from rfl, tset_eq] at hvu
        injection hvu with hh
        rw [← hh, tset_eq, tset_ne _ _ (Ne.symm hdc)]
        rfl
      · rw [show (relaxed w1 w2 w3 cur st c).previous = tset st.previous c.destination (some cur)
          from rfl, tset_ne _ _ hv] at hvu
        have hud : u ≠ c.destination := fun hh => hnv (hh ▸ h.prev_visited v u hvu)
        rw [tset_ne _ _ hv, tset_ne _ _ hud]
        exact h.stops_step v u hvu
    · intro v
      by_cases hv : v = c.destination
      · subst hv
        show tset st.distances c.destination (newScore w1 w2 w3 st cur c) c.destination =
          fcomposite w1 w2 w3 (tset st.costs c.destination (newCost st cur c) c.destination)
            (tset st.times c.destination (newTime st cur c) c.destination)
            (tset st.stops c.destination (newStops st cur c) c.destination)
        rw [tset_eq, tset_eq, tset_eq, tset_eq]
        rfl
      · show tset st.distances c.destination (newScore w1 w2 w3 st cur c) v =
          fcomposite w1 w2 w3 (tset st.costs c.destination (newCost st cur c) v)
            (tset st.times c.destination (newTime st cur c) v)
            (tset st.stops c.destination (newStops st cur c) v)
        rw [tset_ne _ _ hv, tset_ne _ _ hv, tset_ne _ _ hv, tset_ne _ _ hv]
        exact h.dist_composite v
    · exact h.graph_view

theorem dinv_foldl {net : Network} {origin : String} {w1 w2 w3 : ℚ} {cur : String} :
    ∀ (conns : List Connection) (st : DState),
      (∀ c ∈ conns, c ∈ ddView net.graph cur) → cur ∈ st.visited → origin ∈ st.visited →
      DInv net origin w1 w2 w3 st →
      DInv net origin w1 w2 w3 (conns.foldl (relaxEdge w1 w2 w3 cur) st) := by
  intro conns
  induction conns with
  | nil => intro st _ _ _ h; exact h
  | cons c conns ih =>
    intro st hc hcur horig h
    rw [List.foldl_cons]
    refine ih _ (fun c' hc' => hc c' (List.mem_cons_of_mem _ hc')) ?_ ?_
      (dinv_relax (hc c (List.mem_cons_self _ _)) hcur horig h)
    · rw [relaxEdge_visited]; exact hcur
    · rw [relaxEdge_visited]; exact horig

theorem foldl_relax_graph (w1 w2 w3 : ℚ) (cur : String) :
    ∀ (conns : List Connection) (st : DState),
      (conns.foldl (relaxEdge w1 w2 w3 cur) st).graph = st.graph := by
  intro conns
  induction conns with
  | nil => intro st; rfl
  | cons c conns ih =>
    intro st
    rw [List.foldl_cons, ih, relaxEdge_graph]

theorem foldl_relax_visited (w1 w2 w3 : ℚ) (cur : String) :
    ∀ (conns : List Connection) (st : DState),
      (conns.foldl (relaxEdge w1 w2 w3 cur) st).visited = st.visited := by
  intro conns
  induction conns with
  | nil => intro st; rfl
  | cons c conns ih =>
    intro st
    rw [List.foldl_cons, ih, relaxEdge_visited]

/-- Settling an unvisited station popped from the head of the frontier
preserves the invariant (before its edges are relaxed). -/
theorem dinv_settle {net : Network} {origin : String} {w1 w2 w3 : ℚ} {st : DState}
    {d : Option ℚ} {cur : String} {rest : List (Option ℚ × String)}
    (hpq : st.pq = (d, cur) :: rest) (hv : cur ∉ st.visited)
    (h : DInv net origin w1 w2 w3 st) :
    DInv net origin w1 w2 w3
      { st with
          pq := rest
          visited := cur :: st.visited
          graph := (ddGet st.graph cur).2 } := by
  have horig1 : origin ∈ cur :: st.visited := by
    rcases h.origin_first with h1 | ⟨_, h2⟩
    · exact List.mem_cons_of_mem _ h1
    · rw [hpq] at h2
      injection h2 with h2a _
      injection h2a with _ h2c
      rw [h2c]
      exact List.mem_cons_self _ _
  refine ⟨h.prev_origin, ?_, h.prev_edge, ?_, ?_, ?_, ?_, h.origin_zero, Or.inl horig1,
    h.stops_step, h.dist_composite, ?_⟩
  · intro v u hvu
    exact List.mem_cons_of_mem _ (h.prev_visited v u hvu)
  · intro e he
    exact h.pq_entry e (by rw [hpq]; exact List.mem_cons_of_mem _ he)
  · intro v hvd
    rcases h.reached_settled v hvd with h1 | ⟨e, he, hev⟩
    · exact Or.inl (List.mem_cons_of_mem _ h1)
    · rw [hpq] at he
      rcases List.mem_cons.mp he with rfl | he'
      · exact Or.inl (hev ▸ List.mem_cons_self _ _)
      · exact Or.inr ⟨e, he', hev⟩
  · exact List.nodup_cons.mpr ⟨hv, h.visited_nodup⟩
  · show (cur = origin ∨ ∃ u, st.previous cur = some u ∧ u ∈ st.visited) ∧
      PrevLinks st.previous origin st.visited
    refine ⟨?_, h.links⟩
    rcases h.pq_entry (d, cur) (by rw [hpq]; exact List.mem_cons_self _ _) with h1 | h2
    · exact Or.inl h1
    · cases hc : st.previous cur with
      | none => exact absurd hc h2
      | some u => exact Or.inr ⟨u, rfl, h.prev_visited cur u hc⟩
  · intro k
    show ddView (ddGet st.graph cur).2 k = ddView net.graph k
    rw [ddGet_snd_view]
    exact h.graph_view k

theorem dinv_body {net : Network} {origin : String} {w1 w2 w3 : ℚ} {st : DState}
    {d : Option ℚ} {cur : String} {rest : List (Option ℚ × String)}
    (hpq : st.pq = (d, cur) :: rest) (h : DInv net origin w1 w2 w3 st) :
    DInv net origin w1 w2 w3 (dijkstraBody w1 w2 w3 st cur rest) := by
  unfold dijkstraBody
  by_cases hv : cur ∈ st.visited
  · rw [if_pos hv]
    refine ⟨h.prev_origin, h.prev_visited, h.prev_edge, ?_, ?_, h.visited_nodup, h.links,
      h.origin_zero, ?_, h.stops_step, h.dist_composite, h.graph_view⟩
    · intro e he
      exact h.pq_entry e (by rw [hpq]; exact List.mem_cons_of_mem _ he)
    · intro v hvd
      rcases h.reached_settled v hvd with h1 | ⟨e, he, hev⟩
      · exact Or.inl h1
      · rw [hpq] at he
        rcases List.mem_cons.mp he with rfl | he'
        · exact Or.inl (hev ▸ hv)
        · exact Or.inr ⟨e, he', hev⟩
    · rcases h.origin_first with h1 | ⟨h1, _⟩
      · exact Or.inl h1
      · rw [h1] at hv
        exact absurd hv (List.not_mem_nil _)
  · rw [if_neg hv]
    have horig1 : origin ∈ cur :: st.visited := by
      rcases h.origin_first with h1 | ⟨_, h2⟩
      · exact List.mem_cons_of_mem _ h1
      · rw [hpq] at h2
        injection h2 with h2a _
        injection h2a with _ h2c
        rw [h2c]
        exact List.mem_cons_self _ _
    refine dinv_foldl _ _ ?_ (List.mem_cons_self _ _) horig1 (dinv_settle hpq hv h)
    intro c hcm
    rw [ddGet_fst, h.graph_view] at hcm
    exact hcm

theorem dinv_init (net : Network) (origin : String) (w1 w2 w3 : ℚ) :
    DInv net origin w1 w2 w3 (initState net origin) := by
  refine ⟨rfl, ?_, ?_, ?_, ?_, ?_, trivial, ?_, ?_, ?_, ?_, ?_⟩
  · intro v u h
    exact absurd h (by simp [initState])
  · intro v u h
    exact absurd h (by simp [initState])
  · intro e he
    rcases List.mem_singleton.mp he with rfl
    exact Or.inl rfl
  · intro v hv
    by_cases hvo : v = origin
    · subst hvo
      exact Or.inr ⟨(some 0, v), List.mem_singleton.mpr rfl, rfl⟩
    · exfalso
      apply hv
      simp [initState, tset, hvo]
  · simp [initState]
  · refine ⟨?_, ?_, ?_, ?_⟩ <;> simp [initState, tset]
  · exact Or.inr ⟨rfl, rfl⟩
  · intro v u h
    exact absurd h (by simp [initState])
  · intro v
    by_cases hvo : v = origin
    · subst hvo
      simp [initState, tset, fcomposite]
    · simp [initState, tset, hvo, fcomposite]
  · intro k
    rfl

theorem loop_pres {w1 w2 w3 : ℚ} (P : DState → Prop)
    (hP : ∀ st d cur rest, st.pq = (d, cur) :: rest → P st →
      P (dijkstraBody w1 w2 w3 st cur rest)) :
    ∀ fuel (st st' : DState), dijkstraLoop w1 w2 w3 fuel st = some st' → P st →
      P st' ∧ st'.pq = [] := by
  intro fuel
  induction fuel with
  | zero => intro st st' h; simp [dijkstraLoop] at h
  | succ f ih =>
    intro st st' h hP0
    rw [dijkstraLoop] at h
    cases hpq : st.pq with
    | nil =>
      rw [hpq] at h
      simp only [Option.some.injEq] at h
      rw [← h]
      exact ⟨hP0, hpq⟩
    | cons e rest =>
      obtain ⟨d, cur⟩ := e
      rw [hpq] at h
      exact ih _ st' h (hP st d cur rest hpq hP0)

/-! ## The monotone-score invariant (needs non-negative attributes and weights) -/

/-- Along every predecessor link the recorded composite score does not
decrease. -/
def ScoreInv (st : DState) : Prop :=
  ∀ v u, st.previous v = some u → scoreLE (st.distances u) (st.distances v)

theorem nonneg_of_ddView {net : Network} {k : String} {c : Connection}
    (hnn : NonnegNet net) (hc : c ∈ ddView net.graph k) :
    0 ≤ c.cost ∧ 0 ≤ c.travel_time := by
  unfold ddView at hc
  cases h : net.graph.find? (fun p => p.1 = k) with
  | none => simp [h] at hc
  | some p =>
    rw [h] at hc
    exact hnn p (List.mem_of_find?_eq_some h) c hc

theorem score_relax {net : Network} {origin : String} {w1 w2 w3 : ℚ} {cur : String}
    {st : DState} {c : Connection}
    (hnn : NonnegNet net) (hw1 : 0 ≤ w1) (hw2 : 0 ≤ w2) (hw3 : 0 ≤ w3)
    (hc : c ∈ ddView net.graph cur) (hcur : cur ∈ st.visited)
    (h : DInv net origin w1 w2 w3 st) (hs : ScoreInv st) :
    ScoreInv (relaxEdge w1 w2 w3 cur st c) := by
  rcases relaxEdge_cases w1 w2 w3 cur st c with heq | ⟨hnv, _, heq⟩
  · rw [heq]; exact hs
  · rw [heq]
    have hdc : c.destination ≠ cur := fun hh => hnv (hh ▸ hcur)
    intro v u hvu
    rw [show (relaxed w1 w2 w3 cur st c).previous = tset st.previous c.destination (some cur)
      from rfl] at hvu
    show scoreLE (tset st.distances c.destination (newScore w1 w2 w3 st cur c) u)
      (tset st.distances c.destination (newScore w1 w2 w3 st cur c) v)
    by_cases hv : v = c.destination
    · subst hv
      rw [tset_eq] at hvu
      injection hvu with hh
      rw [← hh, tset_eq, tset_ne _ _ (Ne.symm hdc)]
      rw [h.dist_composite cur]
      obtain ⟨hcost, htime⟩ := nonneg_of_ddView hnn hc
      cases hcu : st.costs cur with
      | none => simp [fcomposite, newScore, newCost, hcu, fadd, scoreLE]
      | some cu =>
        cases htu : st.times cur with
        | none => simp [fcomposite, newScore, newTime, htu, fadd, scoreLE]
        | some tu =>
          cases hsu : st.stops cur with
          | none => simp [fcomposite, newScore, newStops, hsu, fadd, scoreLE]
          | some su =>
            show scoreLE (fcomposite w1 w2 w3 (some cu) (some tu) (some su))
              (newScore w1 w2 w3 st cur c)
            rw [show newScore w1 w2 w3 st cur c = fcomposite w1 w2 w3
              (fadd (st.costs cur) c.cost) (fadd (st.times cur) c.travel_time)
              (fadd (st.stops cur) 1) from rfl, hcu, htu, hsu]
            show scoreLE (fcomposite w1 w2 w3 (some cu) (some tu) (some su))
              (fcomposite w1 w2 w3 (some (cu + c.cost)) (some (tu + c.travel_time))
                (some (su + 1)))
            show w1 * (cu / 100) + w2 * (tu / 60) + w3 * (su / 25) ≤
              w1 * ((cu + c.cost) / 100) + w2 * ((tu + c.travel_time) / 60) +
                w3 * ((su + 1) / 25)
            have e1 : w1 * ((cu + c.cost) / 100) =
                w1 * (cu / 100) + w1 * (c.cost / 100) := by ring
            have e2 : w2 * ((tu + c.travel_time) / 60) =
                w2 * (tu / 60) + w2 * (c.travel_time / 60) := by ring
            have e3 : w3 * ((su + 1) / 25) = w3 * (su / 25) + w3 * (1 / 25) := by ring
            have p1 : 0 ≤ w1 * (c.cost / 100) :=
              mul_nonneg hw1 (div_nonneg hcost (by norm_num))
            have p2 : 0 ≤ w2 * (c.travel_time / 60) :=
              mul_nonneg hw2 (div_nonneg htime (by norm_num))
            have p3 : 0 ≤ w3 * (1 / 25 : ℚ) := mul_nonneg hw3 (by norm_num)
            linarith
    · rw [tset_ne _ _ hv] at hvu ⊢
      have hud : u ≠ c.destination := fun hh => hnv (hh ▸ h.prev_visited v u hvu)
      rw [tset_ne _ _ hud]
      exact hs v u hvu

theorem score_foldl {net : Network} {origin : String} {w1 w2 w3 : ℚ} {cur : String}
    (hnn : NonnegNet net) (hw1 : 0 ≤ w1) (hw2 : 0 ≤ w2) (hw3 : 0 ≤ w3) :
    ∀ (conns : List Connection) (st : DState),
      (∀ c ∈ conns, c ∈ ddView net.graph cur) → cur ∈ st.visited → origin ∈ st.visited →
      DInv net origin w1 w2 w3 st → ScoreInv st →
      ScoreInv (conns.foldl (relaxEdge w1 w2 w3 cur) st) := by
  intro conns
  induction conns with
  | nil => intro st _ _ _ _ hs; exact hs
  | cons c conns ih =>
    intro st hc hcur horig h hs
    rw [List.foldl_cons]
    refine ih _ (fun c' hc' => hc c' (List.mem_cons_of_mem _ hc')) ?_ ?_
      (dinv_relax (hc c (List.mem_cons_self _ _)) hcur horig h)
      (score_relax hnn hw1 hw2 hw3 (hc c (List.mem_cons_self _ _)) hcur h hs)
    · rw [relaxEdge_visited]; exact hcur
    · rw [relaxEdge_visited]; exact horig

theorem score_body {net : Network} {origin : String} {w1 w2 w3 : ℚ} {st : DState}
    {d : Option ℚ} {cur : String} {rest : List (Option ℚ × String)}
    (hnn : NonnegNet net) (hw1 : 0 ≤ w1) (hw2 : 0 ≤ w2) (hw3 : 0 ≤ w3)
    (hpq : st.pq = (d, cur) :: rest) (h : DInv net origin w1 w2 w3 st) (hs : ScoreInv st) :
    ScoreInv (dijkstraBody w1 w2 w3 st cur rest) := by
  unfold dijkstraBody
  by_cases hv : cur ∈ st.visited
  · rw [if_pos hv]
    exact hs
  · rw [if_neg hv]
    have horig1 : origin ∈ cur :: st.visited := by
      rcases h.origin_first with h1 | ⟨_, h2⟩
      · exact List.mem_cons_of_mem _ h1
      · rw [hpq] at h2
        injection h2 with h2a _
        injection h2a with _ h2c
        rw [h2c]
        exact List.mem_cons_self _ _
    refine score_foldl hnn hw1 hw2 hw3 _ _ ?_ (List.mem_cons_self _ _) horig1
      (dinv_settle hpq hv h) hs
    intro c hcm
    rw [ddGet_fst, h.graph_view] at hcm
    exact hcm

/-! ## The station-set invariant (needs the NetworkModel well-formedness) -/

/-- All settled stations and all frontier entries are registered stations. -/
structure SInv (net : Network) (st : DState) : Prop where
  visited_stations : ∀ v ∈ st.visited, v ∈ net.stations
  pq_stations : ∀ e ∈ st.pq, e.2 ∈ net.stations

theorem sinv_relax {net : Network} {w1 w2 w3 : ℚ} {cur : String} {st : DState}
    {c : Connection} (hwf : WFNet net) (hc : c ∈ ddView net.graph cur)
    (h : SInv net st) : SInv net (relaxEdge w1 w2 w3 cur st c) := by
  rcases relaxEdge_cases w1 w2 w3 cur st c with heq | ⟨_, _, heq⟩
  · rw [heq]; exact h
  · rw [heq]
    refine ⟨h.visited_stations, ?_⟩
    intro e he
    rcases mem_pqPush.mp he with he' | rfl
    · exact h.pq_stations e he'
    · exact mem_ddView net hwf hc

theorem sinv_foldl {net : Network} {w1 w2 w3 : ℚ} {cur : String} (hwf : WFNet net) :
    ∀ (conns : List Connection) (st : DState),
      (∀ c ∈ conns, c ∈ ddView net.graph cur) → SInv net st →
      SInv net (conns.foldl (relaxEdge w1 w2 w3 cur) st) := by
  intro conns
  induction conns with
  | nil => intro st _ h; exact h
  | cons c conns ih =>
    intro st hc h
    rw [List.foldl_cons]
    exact ih _ (fun c' hc' => hc c' (List.mem_cons_of_mem _ hc'))
      (sinv_relax hwf (hc c (List.mem_cons_self _ _)) h)

theorem sinv_body {net : Network} {origin : String} {w1 w2 w3 : ℚ} {st : DState}
    {d : Option ℚ} {cur : String} {rest : List (Option ℚ × String)}
    (hwf : WFNet net) (hpq : st.pq = (d, cur) :: rest)
    (hd : DInv net origin w1 w2 w3 st) (h : SInv net st) :
    SInv net (dijkstraBody w1 w2 w3 st cur rest) := by
  unfold dijkstraBody
  by_cases hv : cur ∈ st.visited
  · rw [if_pos hv]
    exact ⟨h.visited_stations, fun e he =>
      h.pq_stations e (by rw [hpq]; exact List.mem_cons_of_mem _ he)⟩
  · rw [if_neg hv]
    have hcur : cur ∈ net.stations :=
      h.pq_stations (d, cur) (by rw [hpq]; exact List.mem_cons_self _ _)
    refine sinv_foldl hwf _ _ ?_ ?_
    · intro c hcm
      rw [ddGet_fst, hd.graph_view] at hcm
      exact hcm
    · refine ⟨?_, ?_⟩
      · intro v hvm
        rcases List.mem_cons.mp hvm with rfl | hvm'
        · exact hcur
        · exact h.visited_stations v hvm'
      · intro e he
        exact h.pq_stations e (by rw [hpq]; exact List.mem_cons_of_mem _ he)

/-! ## Termination of the relaxation loop -/

/-- The total out-degree of the not-yet-settled stations. -/
def unvisitedDeg (g : Graph) (visited : List String) : ℕ :=
  (g.map (fun p => if p.1 ∈ visited then 0 else p.2.length)).sum

/-- The loop measure: pending frontier entries plus pending relaxations. -/
def dMeasure (st : DState) : ℕ := st.pq.length + unvisitedDeg st.graph st.visited

theorem unvisitedDeg_nil (g : Graph) : unvisitedDeg g [] = graphSize g := by
  induction g with
  | nil => rfl
  | cons p g ih =>
    simp only [unvisitedDeg, graphSize, List.map_cons, List.sum_cons] at *
    simp [ih]


theorem unvisitedDeg_mono (g : Graph) {vis vis' : List String} (h : vis ⊆ vis') :
    unvisitedDeg g vis' ≤ unvisitedDeg g vis := by
  induction g with
  | nil => simp [unvisitedDeg]
  | cons p g ih =>
    simp only [unvisitedDeg, List.map_cons, List.sum_cons]
    simp only [unvisitedDeg] at ih
    have hhead : (if p.1 ∈ vis' then 0 else p.2.length) ≤
        (if p.1 ∈ vis then 0 else p.2.length) := by
      by_cases hp : p.1 ∈ vis
      · simp [hp, h hp]
      · by_cases hp' : p.1 ∈ vis' <;> simp [hp, hp']
    omega

theorem unvisitedDeg_append_nil (g : Graph) (k : String) (vis : List String) :
    unvisitedDeg (g ++ [(k, [])]) vis = unvisitedDeg g vis := by
  simp [unvisitedDeg]

theorem unvisitedDeg_cons (g : Graph) {cur : String} {vis : List String}
    (hk : cur ∉ vis) :
    unvisitedDeg g (cur :: vis) + (ddView g cur).length ≤ unvisitedDeg g vis := by
  induction g with
  | nil => simp [unvisitedDeg, ddView_nil]
  | cons p g ih =>
    obtain ⟨k, l⟩ := p
    rw [ddView_cons]
    simp only [unvisitedDeg, List.map_cons, List.sum_cons]
    simp only [unvisitedDeg] at ih
    by_cases hkc : k = cur
    · subst hkc
      have hmono := unvisitedDeg_mono g (List.subset_cons_self k vis)
      simp only [unvisitedDeg] at hmono
      have e1 : (if (k, l).1 ∈ k :: vis then 0 else l.length) = 0 := by simp
      have e2 : (if (k, l).1 = k then l else ddView g k) = l := by simp
      have e3 : (if (k, l).1 ∈ vis then 0 else l.length) = l.length := by simp [hk]
      rw [e1, e2, e3]
      omega
    · have hddv : (if (k, l).1 = cur then l else ddView g cur) = ddView g cur := by
        simp [hkc]
      rw [hddv]
      by_cases hkv : k ∈ vis
      · have h1 : ((k, l).1 ∈ cur :: vis) := List.mem_cons_of_mem _ hkv
        simp only [if_pos h1, if_pos hkv]
        omega
      · have h1 : ¬ ((k, l).1 ∈ cur :: vis) := by
          simp [List.mem_cons, hkc, hkv]
        simp only [if_neg h1, if_neg hkv]
        omega

theorem relaxEdge_pq_len (w1 w2 w3 : ℚ) (cur : String) (st : DState) (c : Connection) :
    (relaxEdge w1 w2 w3 cur st c).pq.length ≤ st.pq.length + 1 := by
  rcases relaxEdge_cases w1 w2 w3 cur st c with heq | ⟨_, _, heq⟩
  · rw [heq]; omega
  · rw [heq]
    show (pqPush st.pq (newScore w1 w2 w3 st cur c, c.destination)).length ≤ st.pq.length + 1
    rw [length_pqPush]

theorem foldl_relax_pq_len (w1 w2 w3 : ℚ) (cur : String) :
    ∀ (conns : List Connection) (st : DState),
      (conns.foldl (relaxEdge w1 w2 w3 cur) st).pq.length ≤ st.pq.length + conns.length := by
  intro conns
  induction conns with
  | nil => intro st; simp
  | cons c conns ih =>
    intro st
    rw [List.foldl_cons]
    have h1 := ih (relaxEdge w1 w2 w3 cur st c)
    have h2 := relaxEdge_pq_len w1 w2 w3 cur st c
    simp only [List.length_cons]
    omega

theorem measure_body {w1 w2 w3 : ℚ} {st : DState} {d : Option ℚ} {cur : String}
    {rest : List (Option ℚ × String)} (hpq : st.pq = (d, cur) :: rest) :
    dMeasure (dijkstraBody w1 w2 w3 st cur rest) < dMeasure st := by
  have hlen : st.pq.length = rest.length + 1 := by rw [hpq]; rfl
  unfold dijkstraBody
  by_cases hv : cur ∈ st.visited
  · rw [if_pos hv]
    show rest.length + unvisitedDeg st.graph st.visited < dMeasure st
    unfold dMeasure
    omega
  · rw [if_neg hv]
    show dMeasure ((ddGet st.graph cur).1.foldl (relaxEdge w1 w2 w3 cur)
        { st with
            pq := rest
            visited := cur :: st.visited
            graph := (ddGet st.graph cur).2 }) < dMeasure st
    unfold dMeasure
    have hg : ((ddGet st.graph cur).1.foldl (relaxEdge w1 w2 w3 cur)
        { st with
            pq := rest
            visited := cur :: st.visited
            graph := (ddGet st.graph cur).2 }).graph = (ddGet st.graph cur).2 :=
      foldl_relax_graph w1 w2 w3 cur _ _
    have hvis : ((ddGet st.graph cur).1.foldl (relaxEdge w1 w2 w3 cur)
        { st with
            pq := rest
            visited := cur :: st.visited
            graph := (ddGet st.graph cur).2 }).visited = cur :: st.visited :=
      foldl_relax_visited w1 w2 w3 cur _ _
    have hpqlen : ((ddGet st.graph cur).1.foldl (relaxEdge w1 w2 w3 cur)
        { st with
            pq := rest
            visited := cur :: st.visited
            graph := (ddGet st.graph cur).2 }).pq.length ≤
        rest.length + (ddGet st.graph cur).1.length :=
      foldl_relax_pq_len w1 w2 w3 cur _ _
    rw [hg, hvis]
    have hfst : (ddGet st.graph cur).1.length = (ddView st.graph cur).length := by
      rw [ddGet_fst]
    have hdeg : unvisitedDeg (ddGet st.graph cur).2 (cur :: st.visited) +
        (ddView st.graph cur).length ≤ unvisitedDeg st.graph st.visited := by
      unfold ddGet
      cases hfind : st.graph.find? (fun p => p.1 = cur) with
      | some p =>
        simp only [hfind]
        exact unvisitedDeg_cons st.graph hv
      | none =>
        simp only [hfind]
        rw [unvisitedDeg_append_nil]
        exact unvisitedDeg_cons st.graph hv
    omega

theorem loop_total {w1 w2 w3 : ℚ} :
    ∀ (fuel : ℕ) (st : DState), dMeasure st < fuel →
      ∃ st', dijkstraLoop w1 w2 w3 fuel st = some st' := by
  intro fuel
  induction fuel with
  | zero => intro st h; omega
  | succ f ih =>
    intro st h
    rw [dijkstraLoop]
    cases hpq : st.pq with
    | nil => exact ⟨st, rfl⟩
    | cons e rest =>
      obtain ⟨d, cur⟩ := e
      refine ih _ ?_
      have hdec := @measure_body w1 w2 w3 st d cur rest hpq
      omega

theorem dijkstra_ok {net : Network} {origin : String} {w1 w2 w3 : ℚ}
    (h : origin ∈ net.stations) :
    ∃ st, dijkstra_multi_criteria net origin w1 w2 w3 = .ok (some st) := by
  unfold dijkstra_multi_criteria
  rw [if_pos h]
  have hm : dMeasure (initState net origin) < dijkstraFuel net := by
    show (initState net origin).pq.length +
      unvisitedDeg (initState net origin).graph (initState net origin).visited <
      dijkstraFuel net
    have h1 : (initState net origin).pq.length = 1 := rfl
    have h2 : unvisitedDeg (initState net origin).graph (initState net origin).visited =
        graphSize net.graph := by
      show unvisitedDeg net.graph [] = graphSize net.graph
      exact unvisitedDeg_nil net.graph
    rw [h1, h2]
    show 1 + graphSize net.graph < 2 + graphSize net.graph
    omega
  obtain ⟨st', hst'⟩ := loop_total (dijkstraFuel net) (initState net origin) hm
  exact ⟨st', by rw [hst']⟩

/-! ## The result-assembly fold of `find_optimal_routes` -/

/-- What holds of every entry `(s, r)` that `find_optimal_routes` puts in
the mapping. -/
def RouteProp (st : DState) (start : String) (fuel : ℕ) (s : String) (r : RouteResult) :
    Prop :=
  s ≠ start ∧ st.distances s ≠ none ∧
  get_path st.previous fuel start s = some r.path ∧
  r.total_cost = pyRound (fin0 (st.costs s)) 2 ∧
  r.total_time = pyRound (fin0 (st.times s)) 2 ∧
  r.total_stops = pyInt (fin0 (st.stops s)) ∧
  r.composite_score = pyRound (fin0 (st.distances s)) 4

theorem routeStep_some (st : DState) (start : String) (fuel : ℕ)
    (acc : List (String × RouteResult)) (x : String) :
    routeStep st start fuel (some acc) x =
      if x ≠ start ∧ st.distances x ≠ none then
        match get_path st.previous fuel start x with
        | none => none
        | some path => some (acc ++ [(x,
            { path := path
              total_cost := pyRound (fin0 (st.costs x)) 2
              total_time := pyRound (fin0 (st.times x)) 2
              total_stops := pyInt (fin0 (st.stops x))
              composite_score := pyRound (fin0 (st.distances x)) 4 })])
      else some acc := rfl

theorem foldl_routeStep_none (st : DState) (start : String) (fuel : ℕ) :
    ∀ l : List String, l.foldl (routeStep st start fuel) none = none := by
  intro l
  induction l with
  | nil => rfl
  | cons x l ih => rw [List.foldl_cons]; exact ih

theorem fold_mem (st : DState) (start : String) (fuel : ℕ) :
    ∀ (l : List String) (acc routes : List (String × RouteResult)),
      l.foldl (routeStep st start fuel) (some acc) = some routes →
      ∀ s r, (s, r) ∈ routes → (s, r) ∈ acc ∨ RouteProp st start fuel s r := by
  intro l
  induction l with
  | nil =>
    intro acc routes h s r hm
    simp only [List.foldl_nil, Option.some.injEq] at h
    rw [← h] at hm
    exact Or.inl hm
  | cons x l ih =>
    intro acc routes h s r hm
    rw [List.foldl_cons, routeStep_some] at h
    by_cases hx : x ≠ start ∧ st.distances x ≠ none
    · rw [if_pos hx] at h
      cases hgp : get_path st.previous fuel start x with
      | none =>
        rw [hgp] at h
        rw [foldl_routeStep_none] at h
        exact absurd h (by simp)
      | some path =>
        rw [hgp] at h
        rcases ih _ routes h s r hm with hacc | hprop
        · rcases List.mem_append.mp hacc with h1 | h2
          · exact Or.inl h1
          · have h2' := List.mem_singleton.mp h2
            rw [Prod.mk.injEq] at h2'
            obtain ⟨hs, hr⟩ := h2'
            subst hs
            subst hr
            exact Or.inr ⟨hx.1, hx.2, hgp, rfl, rfl, rfl, rfl⟩
        · exact Or.inr hprop
    · rw [if_neg hx] at h
      exact ih _ routes h s r hm

theorem lookupRoute_append_left {acc : List (String × RouteResult)}
    (l2 : List (String × RouteResult)) {s : String}
    (h : (lookupRoute acc s).isSome) :
    lookupRoute (acc ++ l2) s = lookupRoute acc s := by
  unfold lookupRoute at *
  rw [List.find?_append]
  cases hf : acc.find? (fun p => p.1 = s) with
  | none => rw [hf] at h; simp at h
  | some p => simp

theorem lookupRoute_append_self (acc : List (String × RouteResult)) (s : String)
    (r : RouteResult) : (lookupRoute (acc ++ [(s, r)]) s).isSome := by
  unfold lookupRoute
  rw [List.find?_append]
  cases hf : acc.find? (fun p => p.1 = s) with
  | none => simp [List.find?]
  | some p => simp

theorem fold_lookup_mono (st : DState) (start : String) (fuel : ℕ) :
    ∀ (l : List String) (acc routes : List (String × RouteResult)),
      l.foldl (routeStep st start fuel) (some acc) = some routes →
      ∀ s, (lookupRoute acc s).isSome → (lookupRoute routes s).isSome := by
  intro l
  induction l with
  | nil =>
    intro acc routes h s hs
    simp only [List.foldl_nil, Option.some.injEq] at h
    rw [← h]
    exact hs
  | cons x l ih =>
    intro acc routes h s hs
    rw [List.foldl_cons, routeStep_some] at h
    by_cases hx : x ≠ start ∧ st.distances x ≠ none
    · rw [if_pos hx] at h
      cases hgp : get_path st.previous fuel start x with
      | none =>
        rw [hgp, foldl_routeStep_none] at h
        exact absurd h (by simp)
      | some path =>
        rw [hgp] at h
        refine ih _ routes h s ?_
        rw [lookupRoute_append_left _ hs]
        exact hs
    · rw [if_neg hx] at h
      exact ih _ routes h s hs

theorem fold_lookup_of_mem (st : DState) (start : String) (fuel : ℕ) :
    ∀ (l : List String) (acc routes : List (String × RouteResult)),
      l.foldl (routeStep st start fuel) (some acc) = some routes →
      ∀ s ∈ l, s ≠ start → st.distances s ≠ none →
        (lookupRoute routes s).isSome := by
  intro l
  induction l with
  | nil => intro acc routes _ s hs; simp at hs
  | cons x l ih =>
    intro acc routes h s hsl hss hsd
    rw [List.foldl_cons, routeStep_some] at h
    rcases List.mem_cons.mp hsl with rfl | hsl'
    · rw [if_pos ⟨hss, hsd⟩] at h
      cases hgp : get_path st.previous fuel start s with
      | none =>
        rw [hgp, foldl_routeStep_none] at h
        exact absurd h (by simp)
      | some path =>
        rw [hgp] at h
        exact fold_lookup_mono st start fuel l _ routes h s
          (lookupRoute_append_self acc s _)
    · by_cases hx : x ≠ start ∧ st.distances x ≠ none
      · rw [if_pos hx] at h
        cases hgp : get_path st.previous fuel start x with
        | none =>
          rw [hgp, foldl_routeStep_none] at h
          exact absurd h (by simp)
        | some path =>
          rw [hgp] at h
          exact ih _ routes h s hsl' hss hsd
      · rw [if_neg hx] at h
        exact ih _ routes h s hsl' hss hsd

theorem fold_total (st : DState) (start : String) (fuel : ℕ) :
    ∀ (l : List String) (acc : List (String × RouteResult)),
      (∀ s ∈ l, s ≠ start → st.distances s ≠ none →
        ∃ path, get_path st.previous fuel start s = some path) →
      ∃ routes, l.foldl (routeStep st start fuel) (some acc) = some routes := by
  intro l
  induction l with
  | nil => intro acc _; exact ⟨acc, rfl⟩
  | cons x l ih =>
    intro acc hgp
    rw [List.foldl_cons, routeStep_some]
    by_cases hx : x ≠ start ∧ st.distances x ≠ none
    · rw [if_pos hx]
      obtain ⟨path, hpath⟩ := hgp x (List.mem_cons_self _ _) hx.1 hx.2
      rw [hpath]
      exact ih _ (fun s hs => hgp s (List.mem_cons_of_mem _ hs))
    · rw [if_neg hx]
      exact ih _ (fun s hs => hgp s (List.mem_cons_of_mem _ hs))

theorem lookupRoute_mem {routes : List (String × RouteResult)} {s : String}
    {r : RouteResult} (h : lookupRoute routes s = some r) : (s, r) ∈ routes := by
  unfold lookupRoute at h
  cases hf : routes.find? (fun p => p.1 = s) with
  | none => rw [hf] at h; exact absurd h (by simp)
  | some p =>
    rw [hf] at h
    simp only [Option.map, Option.some.injEq] at h
    have hmem := List.mem_of_find?_eq_some hf
    have hpred : p.1 = s := by simpa using List.find?_some hf
    have hps : p = (s, r) := by
      obtain ⟨p1, p2⟩ := p
      simp only at hpred h
      rw [hpred, h]
    rw [← hps]
    exact hmem

/-! ## End-to-end extraction -/

theorem find_ok_inv {net : Network} {start : String} {w1 w2 w3 : ℚ}
    {routes : List (String × RouteResult)} {net' : Network}
    (h : find_optimal_routes net start w1 w2 w3 = .ok (some (routes, net'))) :
    ∃ st, dijkstra_multi_criteria net start w1 w2 w3 = .ok (some st) ∧
      net.stations.foldl (routeStep st start (net.stations.length + 1)) (some []) =
        some routes ∧
      net' = { net with graph := st.graph } ∧
      dijkstraState net start w1 w2 w3 = st := by
  unfold find_optimal_routes at h
  split at h
  · exact absurd h (by simp)
  · exact absurd h (by simp)
  · rename_i st hd
    split at h
    · exact absurd h (by simp)
    · rename_i routes0 hf
      simp only [Except.ok.injEq, Option.some.injEq, Prod.mk.injEq] at h
      obtain ⟨h1, h2⟩ := h
      refine ⟨st, hd, ?_, h2.symm, ?_⟩
      · rw [← h1]; exact hf
      · unfold dijkstraState
        rw [hd]

theorem dijkstra_ok_inv {net : Network} {origin : String} {w1 w2 w3 : ℚ} {st : DState}
    (hd : dijkstra_multi_criteria net origin w1 w2 w3 = .ok (some st)) :
    origin ∈ net.stations ∧
      dijkstraLoop w1 w2 w3 (dijkstraFuel net) (initState net origin) = some st := by
  unfold dijkstra_multi_criteria at hd
  by_cases ho : origin ∈ net.stations
  · rw [if_pos ho] at hd
    simp only [Except.ok.injEq] at hd
    exact ⟨ho, hd⟩
  · rw [if_neg ho] at hd
    exact absurd hd (by simp)

theorem final_state_dinv {net : Network} {origin : String} {w1 w2 w3 : ℚ} {st : DState}
    (hd : dijkstra_multi_criteria net origin w1 w2 w3 = .ok (some st)) :
    DInv net origin w1 w2 w3 st ∧ st.pq = [] := by
  obtain ⟨_, hloop⟩ := dijkstra_ok_inv hd
  exact loop_pres (DInv net origin w1 w2 w3)
    (fun st0 d cur rest hpq h => dinv_body hpq h)
    (dijkstraFuel net) (initState net origin) st hloop (dinv_init net origin w1 w2 w3)

theorem final_state_score {net : Network} {origin : String} {w1 w2 w3 : ℚ} {st : DState}
    (hnn : NonnegNet net) (hw1 : 0 ≤ w1) (hw2 : 0 ≤ w2) (hw3 : 0 ≤ w3)
    (hd : dijkstra_multi_criteria net origin w1 w2 w3 = .ok (some st)) :
    ScoreInv st := by
  obtain ⟨_, hloop⟩ := dijkstra_ok_inv hd
  have h := loop_pres (fun s => DInv net origin w1 w2 w3 s ∧ ScoreInv s)
    (fun st0 d cur rest hpq h =>
      ⟨dinv_body hpq h.1, score_body hnn hw1 hw2 hw3 hpq h.1 h.2⟩)
    (dijkstraFuel net) (initState net origin) st hloop
    ⟨dinv_init net origin w1 w2 w3, fun v u hvu => absurd hvu (by simp [initState])⟩
  exact h.1.2

theorem final_state_sinv {net : Network} {origin : String} {w1 w2 w3 : ℚ} {st : DState}
    (hwf : WFNet net)
    (hd : dijkstra_multi_criteria net origin w1 w2 w3 = .ok (some st)) :
    SInv net st := by
  obtain ⟨ho, hloop⟩ := dijkstra_ok_inv hd
  have h := loop_pres (fun s => DInv net origin w1 w2 w3 s ∧ SInv net s)
    (fun st0 d cur rest hpq h =>
      ⟨dinv_body hpq h.1, sinv_body hwf hpq h.1 h.2⟩)
    (dijkstraFuel net) (initState net origin) st hloop
    ⟨dinv_init net origin w1 w2 w3, ⟨fun v hv => absurd hv (List.not_mem_nil _),
      fun e he => by
        rcases List.mem_singleton.mp he with rfl
        exact ho⟩⟩
  exact h.1.2

theorem reached_path {net : Network} {origin : String} {w1 w2 w3 : ℚ} {st : DState}
    (hinv : DInv net origin w1 w2 w3 st) (hpq : st.pq = []) {s : String}
    (hs : st.distances s ≠ none) :
    ∃ p, PrevPath st.previous origin s p ∧ (∀ x ∈ p, x ∈ st.visited) ∧
      p.length ≤ st.visited.length := by
  have hv : s ∈ st.visited := by
    rcases hinv.reached_settled s hs with h1 | ⟨e, he, _⟩
    · exact h1
    · rw [hpq] at he
      exact absurd he (List.not_mem_nil _)
  exact prevLinks_path hinv.prev_origin hinv.links s hv

theorem get_path_spec {net : Network} {origin : String} {w1 w2 w3 : ℚ} {st : DState}
    (hinv : DInv net origin w1 w2 w3 st) (hpq : st.pq = []) {s : String}
    (hs : st.distances s ≠ none) {fuel : ℕ} {path : List String}
    (hgp : get_path st.previous fuel origin s = some path) :
    PrevPath st.previous origin s path := by
  obtain ⟨p, hp, _, _⟩ := reached_path hinv hpq hs
  unfold get_path at hgp
  cases hloop : getPathLoop st.previous fuel (some s) [] with
  | none =>
    rw [hloop] at hgp
    exact absurd hgp (by simp)
  | some r =>
    rw [hloop] at hgp
    have hr : r = p ++ [] := getPathLoop_eq_prevPath hp fuel [] r hloop
    rw [List.append_nil] at hr
    rw [hr] at hgp
    have hne := prevPath_ne_nil hp
    have hhead := prevPath_head hp
    cases hp0 : p with
    | nil => exact absurd hp0 hne
    | cons p0 prest =>
      rw [hp0] at hgp hhead
      change (if p0 = origin then some (p0 :: prest) else some ([] : List String)) =
        some path at hgp
      have hpo : p0 = origin := by simpa using hhead
      rw [if_pos hpo] at hgp
      simp only [Option.some.injEq] at hgp
      rw [← hgp, ← hp0]
      exact hp

theorem pyInt_natCast (n : ℕ) : pyInt ((n : ℚ)) = (n : ℤ) := by
  unfold pyInt
  rw [Rat.num_natCast, Rat.den_natCast]
  simp

theorem visited_le_stations {net : Network} {st : DState}
    (hsinv : SInv net st) (hnodup : st.visited.Nodup) :
    st.visited.length ≤ net.stations.length :=
  (hnodup.subperm (fun x hx => hsinv.visited_stations x hx)).length_le

theorem get_path_total {net : Network} {origin : String} {w1 w2 w3 : ℚ} {st : DState}
    (hwf : WFNet net)
    (hd : dijkstra_multi_criteria net origin w1 w2 w3 = .ok (some st)) :
    ∀ s, s ≠ origin → st.distances s ≠ none →
      ∃ path, get_path st.previous (net.stations.length + 1) origin s = some path := by
  intro s _ hs
  obtain ⟨hinv, hpq⟩ := final_state_dinv hd
  have hsinv := final_state_sinv hwf hd
  obtain ⟨p, hp, hsub, hlen⟩ := reached_path hinv hpq hs
  have hvl : st.visited.length ≤ net.stations.length :=
    visited_le_stations hsinv hinv.visited_nodup
  have hfuel : p.length < net.stations.length + 1 := by omega
  have hloop := prevPath_loop hp (net.stations.length + 1) [] hfuel
  unfold get_path
  rw [hloop, List.append_nil]
  have hne := prevPath_ne_nil hp
  have hhead := prevPath_head hp
  cases hp0 : p with
  | nil => exact absurd hp0 hne
  | cons p0 prest =>
    rw [hp0] at hhead
    have hpo : p0 = origin := by simpa using hhead
    refine ⟨p0 :: prest, ?_⟩
    change (if p0 = origin then some (p0 :: prest) else some ([] : List String)) =
      some (p0 :: prest)
    rw [if_pos hpo]

theorem find_eq_of {net : Network} {origin : String} {w1 w2 w3 : ℚ} {st : DState}
    {routes : List (String × RouteResult)}
    (hd : dijkstra_multi_criteria net origin w1 w2 w3 = .ok (some st))
    (hroutes : net.stations.foldl (routeStep st origin (net.stations.length + 1))
      (some []) = some routes) :
    find_optimal_routes net origin w1 w2 w3 =
      .ok (some (routes, { net with graph := st.graph })) := by
  unfold find_optimal_routes
  simp only [hd, hroutes]

theorem body_distances_visited (w1 w2 w3 : ℚ) (st : DState) (cur : String)
    (rest : List (Option ℚ × String)) (v : String) (hv : v ∈ st.visited) :
    (dijkstraBody w1 w2 w3 st cur rest).distances v = st.distances v := by
  unfold dijkstraBody
  by_cases hc : cur ∈ st.visited
  · rw [if_pos hc]
  · rw [if_neg hc]
    have hfold : ∀ (conns : List Connection) (s : DState), v ∈ s.visited →
        (conns.foldl (relaxEdge w1 w2 w3 cur) s).distances v = s.distances v := by
      intro conns
      induction conns with
      | nil => intro s _; rfl
      | cons c conns ih =>
        intro s hvs
        rw [List.foldl_cons, ih _ (by rw [relaxEdge_visited]; exact hvs),
          relaxEdge_distances_visited w1 w2 w3 cur s c hvs]
    exact hfold _ _ (List.mem_cons_of_mem _ hv)

/-! ## The claims -/

/-- C1: for every network, every origin in its station set, and every
station `s` in the mapping returned by `find_optimal_routes`, the
reconstructed path begins with the origin, ends with `s`, and every
consecutive pair of stations on it is connected by an edge present in the
NetworkModel. -/
theorem c1_paths_wellformed :
    ∀ (net : Network) (origin : String) (w1 w2 w3 : ℚ)
      (routes : List (String × RouteResult)) (net' : Network),
      origin ∈ net.stations →
      find_optimal_routes net origin w1 w2 w3 = .ok (some (routes, net')) →
      ∀ s r, lookupRoute routes s = some r →
        r.path.head? = some origin ∧ r.path.getLast? = some s ∧
        List.Chain' (hasEdge net) r.path := by
  intro net origin w1 w2 w3 routes net' _ hfind s r hlook
  obtain ⟨st, hd, hfold, _, _⟩ := find_ok_inv hfind
  obtain ⟨hinv, hpq⟩ := final_state_dinv hd
  rcases fold_mem st origin _ net.stations [] routes hfold s r (lookupRoute_mem hlook)
    with hacc | hprop
  · exact absurd hacc (List.not_mem_nil _)
  · obtain ⟨_, hsd, hgp, _⟩ := hprop
    have hp := get_path_spec hinv hpq hsd hgp
    exact ⟨prevPath_head hp, prevPath_last hp,
      prevPath_chain (fun x y hxy => hinv.prev_edge x y hxy) hp⟩

/-- C1 witness, at the three-station network `netC`. -/
theorem c1_paths_wellformed_witness :
    ((⟨["A", "B"], 1, 1, 1, 1/100⟩ : RouteResult).path.head? = some "A") ∧
    ((⟨["A", "B"], 1, 1, 1, 1/100⟩ : RouteResult).path.getLast? = some "B") ∧
    List.Chain' (hasEdge netC) (⟨["A", "B"], 1, 1, 1, 1/100⟩ : RouteResult).path :=
  c1_paths_wellformed netC "A" 1 0 0 [("B", ⟨["A", "B"], 1, 1, 1, 1/100⟩)] netC
    (by with_unfolding_all decide) (by with_unfolding_all decide) "B"
    ⟨["A", "B"], 1, 1, 1, 1/100⟩ (by with_unfolding_all decide)

set_option maxRecDepth 100000 in
/-- C2: on the reference network, `find_optimal_routes("Aluva", 0.3, 0.4, 0.3)`
maps "Pulinchodu" to path `["Aluva", "Pulinchodu"]`, total cost 5.0, total
time 3.0 (the named override), and 1 stop. -/
theorem c2_concrete_scenario :
    lookupRoute (routesOf kochiMetroNetwork "Aluva" (3/10) (4/10) (3/10)) "Pulinchodu"
    = some ⟨["Aluva", "Pulinchodu"], 5, 3, 1, 47/1000⟩ := by
  with_unfolding_all decide

/-- C3: with non-negative edge attributes and non-negative weights, the
final composite score is non-decreasing along every reconstructed path
(each station's settled score is at most its successor's), and one loop
iteration never changes — in particular never reduces — the recorded
score of a station that is already settled (in `visited`). -/
theorem c3_monotone_scores :
    ∀ (net : Network) (origin : String) (w1 w2 w3 : ℚ)
      (routes : List (String × RouteResult)) (net' : Network),
      NonnegNet net → 0 ≤ w1 → 0 ≤ w2 → 0 ≤ w3 →
      find_optimal_routes net origin w1 w2 w3 = .ok (some (routes, net')) →
      (∀ s r, lookupRoute routes s = some r →
        List.Chain' (fun a b =>
          scoreLE ((dijkstraState net origin w1 w2 w3).distances a)
            ((dijkstraState net origin w1 w2 w3).distances b)) r.path) ∧
      (∀ (st : DState) (cur : String) (rest : List (Option ℚ × String)) (v : String),
        v ∈ st.visited →
        (dijkstraBody w1 w2 w3 st cur rest).distances v = st.distances v) := by
  intro net origin w1 w2 w3 routes net' hnn hw1 hw2 hw3 hfind
  obtain ⟨st, hd, hfold, _, hstate⟩ := find_ok_inv hfind
  constructor
  · intro s r hlook
    rw [hstate]
    obtain ⟨hinv, hpq⟩ := final_state_dinv hd
    have hscore := final_state_score hnn hw1 hw2 hw3 hd
    rcases fold_mem st origin _ net.stations [] routes hfold s r (lookupRoute_mem hlook)
      with hacc | hprop
    · exact absurd hacc (List.not_mem_nil _)
    · obtain ⟨_, hsd, hgp, _⟩ := hprop
      have hp := get_path_spec hinv hpq hsd hgp
      exact prevPath_chain (fun x y hxy => hscore x y hxy) hp
  · intro st0 cur rest v hv
    exact body_distances_visited w1 w2 w3 st0 cur rest v hv

/-- C3 witness, at the three-station network `netC`. -/
theorem c3_monotone_scores_witness :
    List.Chain' (fun a b =>
      scoreLE ((dijkstraState netC "A" 1 0 0).distances a)
        ((dijkstraState netC "A" 1 0 0).distances b))
      (⟨["A", "B"], 1, 1, 1, 1/100⟩ : RouteResult).path :=
  (c3_monotone_scores netC "A" 1 0 0 [("B", ⟨["A", "B"], 1, 1, 1, 1/100⟩)] netC
    (by with_unfolding_all decide) (by norm_num) (by norm_num) (by norm_num)
    (by with_unfolding_all decide)).1 "B"
    ⟨["A", "B"], 1, 1, 1, 1/100⟩ (by with_unfolding_all decide)

/-- C4: `find_optimal_routes` raises an error iff the origin is not in the
station set; the error carries the message naming the offending station
(the source's `ValueError`, the spec's `UnknownStationError`), the check
happens before any relaxation work (the result does not depend on the
graph or the weights), and no weight values ever cause an error. -/
theorem c4_error_iff_unknown_origin :
    ∀ (net : Network) (s : String) (w1 w2 w3 : ℚ),
      ((∃ e, find_optimal_routes net s w1 w2 w3 = .error e) ↔ s ∉ net.stations) ∧
      ∀ e, find_optimal_routes net s w1 w2 w3 = .error e → e = unknownStationMsg s := by
  intro net s w1 w2 w3
  by_cases ho : s ∈ net.stations
  · have hok : ∀ e, find_optimal_routes net s w1 w2 w3 ≠ .error e := by
      intro e he
      unfold find_optimal_routes at he
      split at he
      · rename_i e' hd
        unfold dijkstra_multi_criteria at hd
        rw [if_pos ho] at hd
        exact absurd hd (by simp)
      · exact absurd he (by simp)
      · split at he
        · exact absurd he (by simp)
        · exact absurd he (by simp)
    refine ⟨⟨?_, ?_⟩, ?_⟩
    · rintro ⟨e, he⟩
      exact absurd he (hok e)
    · intro hno
      exact absurd ho hno
    · intro e he
      exact absurd he (hok e)
  · have herr : find_optimal_routes net s w1 w2 w3 = .error (unknownStationMsg s) := by
      unfold find_optimal_routes dijkstra_multi_criteria
      rw [if_neg ho]
    refine ⟨⟨fun _ => ho, fun _ => ⟨unknownStationMsg s, herr⟩⟩, ?_⟩
    intro e he
    rw [herr] at he
    injection he with hh
    exact hh.symm

/-- C4 witness: a station absent from the reference network errors. -/
theorem c4_error_iff_unknown_origin_witness :
    "Fort Kochi" ∉ kochiMetroNetwork.stations ∧
    (∃ e, find_optimal_routes kochiMetroNetwork "Fort Kochi" (3/10) (4/10) (3/10) =
      .error e) :=
  ⟨by with_unfolding_all decide,
   ((c4_error_iff_unknown_origin kochiMetroNetwork "Fort Kochi" (3/10) (4/10) (3/10)).1).mpr
     (by with_unfolding_all decide)⟩

/-- C5 counterexample: `add_connection` on the reference network with the
fresh stations "X" and "Y" does **not** register them — the source's
`add_connection` touches only `self.graph`, never `self.stations` — so
the claim that `stations()` subsequently contains both is false. -/
theorem c5_counterexample :
    ¬ ("X" ∈ (add_connection kochiMetroNetwork "X" "Y" 1 1 1).stations ∧
       "Y" ∈ (add_connection kochiMetroNetwork "X" "Y" 1 1 1).stations) := by
  with_unfolding_all decide

/-- C5 amended: `addConnection(a, b, …)` appends the directed edge `a → b`
to `a`'s outgoing-edge list and leaves every other list — and the station
set — unchanged; it registers nothing. -/
theorem c5_amended :
    ∀ (net : Network) (a b : String) (t d c : ℚ),
      (add_connection net a b t d c).stations = net.stations ∧
      ddView (add_connection net a b t d c).graph a =
        ddView net.graph a ++ [⟨b, t, d, c⟩] ∧
      ∀ k, k ≠ a → ddView (add_connection net a b t d c).graph k = ddView net.graph k := by
  intro net a b t d c
  refine ⟨rfl, ?_, ?_⟩
  · exact ddView_graphAppend_self net.graph a ⟨b, t, d, c⟩
  · intro k hk
    exact ddView_graphAppend_other net.graph a ⟨b, t, d, c⟩ hk

/-- C5 amended witness, on the reference network. -/
theorem c5_amended_witness :
    (add_connection kochiMetroNetwork "X" "Y" 1 1 1).stations =
      kochiMetroNetwork.stations ∧
    ddView (add_connection kochiMetroNetwork "X" "Y" 1 1 1).graph "Aluva" =
      ddView kochiMetroNetwork.graph "Aluva" :=
  ⟨(c5_amended kochiMetroNetwork "X" "Y" 1 1 1).1,
   (c5_amended kochiMetroNetwork "X" "Y" 1 1 1).2.2 "Aluva" (by decide)⟩

/-- C6: a station is a key of the returned mapping iff it is distinct from
the origin and was reached (its accumulated score is not the infinite
sentinel); a disconnected network yields a partial mapping, not an error. -/
theorem c6_mapping_keys :
    ∀ (net : Network) (origin : String) (w1 w2 w3 : ℚ)
      (routes : List (String × RouteResult)) (net' : Network),
      WFNet net →
      find_optimal_routes net origin w1 w2 w3 = .ok (some (routes, net')) →
      ∀ s, (lookupRoute routes s).isSome ↔
        (s ≠ origin ∧ (dijkstraState net origin w1 w2 w3).distances s ≠ none) := by
  intro net origin w1 w2 w3 routes net' hwf hfind s
  obtain ⟨st, hd, hfold, _, hstate⟩ := find_ok_inv hfind
  rw [hstate]
  constructor
  · intro hsome
    obtain ⟨r, hr⟩ := Option.isSome_iff_exists.mp hsome
    rcases fold_mem st origin _ net.stations [] routes hfold s r (lookupRoute_mem hr)
      with hacc | hprop
    · exact absurd hacc (List.not_mem_nil _)
    · exact ⟨hprop.1, hprop.2.1⟩
  · rintro ⟨hso, hsd⟩
    obtain ⟨hinv, hpq⟩ := final_state_dinv hd
    have hsinv := final_state_sinv hwf hd
    have hv : s ∈ st.visited := by
      rcases hinv.reached_settled s hsd with h1 | ⟨e, he, _⟩
      · exact h1
      · rw [hpq] at he
        exact absurd he (List.not_mem_nil _)
    exact fold_lookup_of_mem st origin _ net.stations [] routes hfold s
      (hsinv.visited_stations s hv) hso hsd

/-- C6 witness, at the disconnected network `netC` ("C" is isolated):
"B" (reached, distinct from the origin) is a key of the partial mapping. -/
theorem c6_mapping_keys_witness :
    (lookupRoute [("B", (⟨["A", "B"], 1, 1, 1, 1/100⟩ : RouteResult))] "B").isSome :=
  ((c6_mapping_keys netC "A" 1 0 0 [("B", ⟨["A", "B"], 1, 1, 1, 1/100⟩)] netC
    (by with_unfolding_all decide) (by with_unfolding_all decide)) "B").mpr
    ⟨by decide, by with_unfolding_all decide⟩

/-- C7: `find_optimal_routes` never emits a `RouteResult` whose path is
empty or does not start at the origin (for every reached station the
predecessor walk terminates at the origin, so the defensive `[]` branch
of `get_path` is never stored). -/
theorem c7_no_malformed_paths :
    ∀ (net : Network) (origin : String) (w1 w2 w3 : ℚ)
      (routes : List (String × RouteResult)) (net' : Network),
      find_optimal_routes net origin w1 w2 w3 = .ok (some (routes, net')) →
      ∀ s r, lookupRoute routes s = some r →
        r.path ≠ [] ∧ r.path.head? = some origin := by
  intro net origin w1 w2 w3 routes net' hfind s r hlook
  obtain ⟨st, hd, hfold, _, _⟩ := find_ok_inv hfind
  obtain ⟨hinv, hpq⟩ := final_state_dinv hd
  rcases fold_mem st origin _ net.stations [] routes hfold s r (lookupRoute_mem hlook)
    with hacc | hprop
  · exact absurd hacc (List.not_mem_nil _)
  · obtain ⟨_, hsd, hgp, _⟩ := hprop
    have hp := get_path_spec hinv hpq hsd hgp
    exact ⟨prevPath_ne_nil hp, prevPath_head hp⟩

/-- C7 witness, at the three-station network `netC`. -/
theorem c7_no_malformed_paths_witness :
    (⟨["A", "B"], 1, 1, 1, 1/100⟩ : RouteResult).path ≠ [] ∧
    (⟨["A", "B"], 1, 1, 1, 1/100⟩ : RouteResult).path.head? = some "A" :=
  c7_no_malformed_paths netC "A" 1 0 0 [("B", ⟨["A", "B"], 1, 1, 1, 1/100⟩)] netC
    (by with_unfolding_all decide) "B" ⟨["A", "B"], 1, 1, 1, 1/100⟩
    (by with_unfolding_all decide)

/-- C8: for every destination in the returned mapping, the reported total
stop count equals the length of the reported path minus one. -/
theorem c8_total_stops :
    ∀ (net : Network) (origin : String) (w1 w2 w3 : ℚ)
      (routes : List (String × RouteResult)) (net' : Network),
      find_optimal_routes net origin w1 w2 w3 = .ok (some (routes, net')) →
      ∀ s r, lookupRoute routes s = some r →
        r.total_stops = (r.path.length : ℤ) - 1 := by
  intro net origin w1 w2 w3 routes net' hfind s r hlook
  obtain ⟨st, hd, hfold, _, _⟩ := find_ok_inv hfind
  obtain ⟨hinv, hpq⟩ := final_state_dinv hd
  rcases fold_mem st origin _ net.stations [] routes hfold s r (lookupRoute_mem hlook)
    with hacc | hprop
  · exact absurd hacc (List.not_mem_nil _)
  · obtain ⟨_, hsd, hgp, _, _, htotal, _⟩ := hprop
    have hp := get_path_spec hinv hpq hsd hgp
    have hstops : st.stops s = some ((r.path.length : ℚ) - 1) :=
      prevPath_stops hinv.origin_zero.2.2.2 hinv.stops_step hp
    have hlen : 1 ≤ r.path.length :=
      List.length_pos.mpr (prevPath_ne_nil hp)
    rw [htotal, hstops]
    show pyInt ((r.path.length : ℚ) - 1) = (r.path.length : ℤ) - 1
    have hcast : ((r.path.length : ℚ) - 1) = ((r.path.length - 1 : ℕ) : ℚ) := by
      rw [Nat.cast_sub hlen]
      push_cast
      ring
    rw [hcast, pyInt_natCast]
    omega

/-- C8 witness, at the three-station network `netC`. -/
theorem c8_total_stops_witness :
    (⟨["A", "B"], 1, 1, 1, 1/100⟩ : RouteResult).total_stops =
      ((⟨["A", "B"], 1, 1, 1, 1/100⟩ : RouteResult).path.length : ℤ) - 1 :=
  c8_total_stops netC "A" 1 0 0 [("B", ⟨["A", "B"], 1, 1, 1, 1/100⟩)] netC
    (by with_unfolding_all decide) "B" ⟨["A", "B"], 1, 1, 1, 1/100⟩
    (by with_unfolding_all decide)

/-- C9 counterexample: on `netB` (station "B" is registered and reachable
but has no outgoing-edge entry) the `defaultdict` lookup performed during
optimization **inserts** the key "B" into the adjacency map, so the
adjacency structure's key set after the call differs from the one before:
the network is not left completely unchanged. -/
theorem c9_counterexample :
    (networkAfter netB "A" 1 1 1).graph.map Prod.fst ≠ netB.graph.map Prod.fst := by
  with_unfolding_all decide

/-- C9 amended: optimization leaves the station set unchanged and leaves
the adjacency structure unchanged *as a mapping* (every station's
outgoing-edge list, read through the defaultdict view, is identical); the
only mutation is the possible insertion of empty edge lists for visited
stations that had no adjacency entry. -/
theorem c9_amended :
    ∀ (net : Network) (s : String) (w1 w2 w3 : ℚ),
      (networkAfter net s w1 w2 w3).stations = net.stations ∧
      ∀ k, ddView (networkAfter net s w1 w2 w3).graph k = ddView net.graph k := by
  intro net s w1 w2 w3
  unfold networkAfter
  cases hf : find_optimal_routes net s w1 w2 w3 with
  | error e => exact ⟨rfl, fun k => rfl⟩
  | ok o =>
    cases o with
    | none => exact ⟨rfl, fun k => rfl⟩
    | some p =>
      obtain ⟨routes, net'⟩ := p
      obtain ⟨st, hd, _, hnet', _⟩ := find_ok_inv hf
      obtain ⟨hinv, _⟩ := final_state_dinv hd
      subst hnet'
      exact ⟨rfl, fun k => hinv.graph_view k⟩

/-- C10: on every well-formed finite network, `find_optimal_routes` from a
registered origin terminates and returns a mapping (the loop performs
finitely many iterations: each settlement pushes at most one frontier
entry per outgoing edge). -/
theorem c10_terminates :
    ∀ (net : Network) (origin : String) (w1 w2 w3 : ℚ),
      WFNet net → origin ∈ net.stations →
      ∃ routes net', find_optimal_routes net origin w1 w2 w3 =
        .ok (some (routes, net')) := by
  intro net origin w1 w2 w3 hwf ho
  obtain ⟨st, hd⟩ := dijkstra_ok ho
  obtain ⟨routes, hroutes⟩ := fold_total st origin (net.stations.length + 1)
    net.stations [] (fun s _ hso hs => get_path_total hwf hd s hso hs)
  exact ⟨routes, { net with graph := st.graph }, find_eq_of hd hroutes⟩

/-- C10 witness, on the reference network. -/
theorem c10_terminates_witness :
    ∃ routes net', find_optimal_routes kochiMetroNetwork "Aluva" (3/10) (4/10) (3/10) =
      .ok (some (routes, net')) :=
  c10_terminates kochiMetroNetwork "Aluva" (3/10) (4/10) (3/10)
    (by with_unfolding_all decide) (by with_unfolding_all decide)
